import Mathlib

/-!
Verification of the TSP local-search library (2-opt / 3-opt over a pairwise
distance matrix).  The source's generic float element type `N: Float` is
modelled exactly by the rationals; machine tours (`Vec<usize>`) are lists of
naturals.  Fallible behaviour (out-of-bounds indexing, which panics in the
source) is modelled by checked `Option`-valued variants of each operation,
while the plain variants use defaulted lookups and are related to the checked
ones under the validity hypotheses of the claims.  The unbounded `while`
loops are modelled with explicit fuel; termination is proved separately.
-/

namespace TSP

/-- Distance table `distances: Vec<Vec<N>>`, row major, rational entries. -/
abbrev Mat := List (List ℚ)

/-- Matrix dimension `self.distances.len()`. -/
def matSize (d : Mat) : ℕ := d.length

/-- Defaulted entry lookup `self.distances[i][j]` (checked variant: `accE`). -/
def distAt (d : Mat) (i j : ℕ) : ℚ := (d.getD i []).getD j 0

/-- Acceptance tolerance: the source tests `delta < N::from(-1e-10).unwrap()`;
the literal is modelled exactly. -/
def epsTol : ℚ := 1 / 10 ^ 10

/-- Element swap `path.swap(i, j)` (simultaneous exchange of two positions). -/
def listSwap (l : List ℕ) (i j : ℕ) : List ℕ :=
  (l.set i (l.getD j 0)).set j (l.getD i 0)

/-- The pairwise-swap `for` loop of `exchange`:
`for i in 0..k { path.swap(a + i + 1, b + i + 1) }`. -/
def swapLoop (path : List ℕ) (a b k : ℕ) : List ℕ :=
  (List.range k).foldl (fun p i => listSwap p (a + i + 1) (b + i + 1)) path

/-- Source `exchange`: swaps the consecutive segments `(a, b]` and `(b, c]` by
pairwise swaps of the first `min` elements, then recursion on the unmatched
remainder of the longer segment. -/
def exchange (path : List ℕ) (a b c : ℕ) : List ℕ :=
  if b - a = 0 ∨ c - b = 0 then path
  else if b - a < c - b then
    exchange (swapLoop path a b (min (b - a) (c - b))) b (b + (b - a)) c
  else if c - b < b - a then
    exchange (swapLoop path a b (min (b - a) (c - b))) (a + (c - b)) b c
  else
    swapLoop path a b (min (b - a) (c - b))
termination_by c - a
decreasing_by
  all_goals omega

/-- Slice reversal `path[s..e].reverse()`. -/
def reverseSegment (p : List ℕ) (s e : ℕ) : List ℕ :=
  p.take s ++ ((p.take e).drop s).reverse ++ p.drop e

/-- Cyclic tour length: the source's final recomputation
`for i in 0..path.len() { distance += distances[path[i]][path[(i+1) % n]] }`. -/
def tourLength (d : Mat) (path : List ℕ) : ℚ :=
  (List.range path.length).foldl
    (fun acc i => acc + distAt d (path.getD i 0) (path.getD ((i + 1) % path.length) 0)) 0

/-- Initial working tour: identity `0..n-1` by default, else a copy of the
caller's tour (no validation is performed by the source). -/
def initPath (d : Mat) (start : Option (List ℕ)) : List ℕ :=
  match start with
  | none => List.range (matSize d)
  | some p => p

/-- Body of the 2-opt double loop at pair `(a, b)`: test `delta < -1e-10`,
and on acceptance reverse `path[a+1..b+1]` and clear the stable flag. -/
def inner2 (d : Mat) (n a : ℕ) (st : List ℕ × Bool) (b : ℕ) : List ℕ × Bool :=
  if distAt d (st.1.getD a 0) (st.1.getD b 0) +
      distAt d (st.1.getD (a + 1) 0) (st.1.getD ((b + 1) % n) 0) -
      distAt d (st.1.getD a 0) (st.1.getD (a + 1) 0) -
      distAt d (st.1.getD b 0) (st.1.getD ((b + 1) % n) 0) < -epsTol
  then (reverseSegment st.1 (a + 1) (b + 1), false)
  else st

/-- One full 2-opt sweep `for a in 0..n { for b in a+2..n { … } }`, entered
with `stable = true`. -/
def sweep2 (d : Mat) (n : ℕ) (path : List ℕ) : List ℕ × Bool :=
  (List.range n).foldl
    (fun st a => (List.range' (a + 2) (n - (a + 2))).foldl (inner2 d n a) st)
    (path, true)

/-- The `while !stable` loop of `do_2opt`, with explicit fuel
(`none` = fuel exhausted before a stable sweep). -/
def loop2 (d : Mat) (n : ℕ) : ℕ → List ℕ → Option (List ℕ)
  | 0, _ => none
  | fuel + 1, path =>
    if (sweep2 d n path).2 then some (sweep2 d n path).1
    else loop2 d n fuel (sweep2 d n path).1

/-- Source `do_2opt` (fuelled): optimize, then return the recomputed cyclic
length together with the final tour. -/
def do_2opt (d : Mat) (fuel : ℕ) (start : Option (List ℕ)) : Option (ℚ × List ℕ) :=
  (loop2 d (initPath d start).length fuel (initPath d start)).map
    fun p => (tourLength d p, p)

/-- The summed length of the three current edges at `(a, b, c)`
(`current` in the source). -/
def current3 (d : Mat) (path : List ℕ) (n a b c : ℕ) : ℚ :=
  distAt d (path.getD a 0) (path.getD (a + 1) 0) +
    distAt d (path.getD b 0) (path.getD (b + 1) 0) +
    distAt d (path.getD c 0) (path.getD ((c + 1) % n) 0)

/-- The seven candidate reconnection costs (`swaps` in the source, in order). -/
def swaps3 (d : Mat) (path : List ℕ) (n a b c : ℕ) : List ℚ :=
  [distAt d (path.getD a 0) (path.getD (a + 1) 0) +
      distAt d (path.getD b 0) (path.getD c 0) +
      distAt d (path.getD (b + 1) 0) (path.getD ((c + 1) % n) 0),
    distAt d (path.getD a 0) (path.getD c 0) +
      distAt d (path.getD (b + 1) 0) (path.getD b 0) +
      distAt d (path.getD (a + 1) 0) (path.getD ((c + 1) % n) 0),
    distAt d (path.getD a 0) (path.getD b 0) +
      distAt d (path.getD (a + 1) 0) (path.getD (b + 1) 0) +
      distAt d (path.getD c 0) (path.getD ((c + 1) % n) 0),
    distAt d (path.getD a 0) (path.getD (b + 1) 0) +
      distAt d (path.getD c 0) (path.getD b 0) +
      distAt d (path.getD (a + 1) 0) (path.getD ((c + 1) % n) 0),
    distAt d (path.getD a 0) (path.getD b 0) +
      distAt d (path.getD (a + 1) 0) (path.getD c 0) +
      distAt d (path.getD (b + 1) 0) (path.getD ((c + 1) % n) 0),
    distAt d (path.getD a 0) (path.getD c 0) +
      distAt d (path.getD (b + 1) 0) (path.getD (a + 1) 0) +
      distAt d (path.getD b 0) (path.getD ((c + 1) % n) 0),
    distAt d (path.getD a 0) (path.getD (b + 1) 0) +
      distAt d (path.getD c 0) (path.getD (a + 1) 0) +
      distAt d (path.getD b 0) (path.getD ((c + 1) % n) 0)]

/-- Index of the first minimum of `swaps`:
`let mut min = 0; for i in 1..swaps.len() { if swaps[i] < swaps[min] { min = i } }`. -/
def minIdx (swaps : List ℚ) : ℕ :=
  (List.range' 1 (swaps.length - 1)).foldl
    (fun m i => if swaps.getD i 0 < swaps.getD m 0 then i else m) 0

/-- The transform applied for the selected case (the source `match min`).
Values above 6 cannot occur in the sweep (`unreachable!()` in the source);
they are mapped to the unchanged path here, and the checked variant
`apply3C` maps them to `none`. -/
def apply3 (path : List ℕ) (a b c m : ℕ) : List ℕ :=
  match m with
  | 0 => reverseSegment path (b + 1) (c + 1)
  | 1 => reverseSegment path (a + 1) (c + 1)
  | 2 => reverseSegment path (a + 1) (b + 1)
  | 3 => exchange (reverseSegment path (a + 1) (b + 1)) a b c
  | 4 => reverseSegment (reverseSegment path (a + 1) (b + 1)) (b + 1) (c + 1)
  | 5 => exchange (reverseSegment path (b + 1) (c + 1)) a b c
  | 6 => exchange path a b c
  | _ => path

/-- Body of the 3-opt triple loop at `(a, b, c)`: pick the minimum candidate,
test it against `current` at tolerance `-1e-10`, apply its transform. -/
def inner3 (d : Mat) (n a b : ℕ) (st : List ℕ × Bool) (c : ℕ) : List ℕ × Bool :=
  if (swaps3 d st.1 n a b c).getD (minIdx (swaps3 d st.1 n a b c)) 0 -
      current3 d st.1 n a b c < -epsTol
  then (apply3 st.1 a b c (minIdx (swaps3 d st.1 n a b c)), false)
  else st

/-- One full 3-opt sweep over all triples `a < b < c < n`. -/
def sweep3 (d : Mat) (n : ℕ) (path : List ℕ) : List ℕ × Bool :=
  (List.range n).foldl
    (fun st a =>
      (List.range' (a + 1) (n - (a + 1))).foldl
        (fun st2 b => (List.range' (b + 1) (n - (b + 1))).foldl (inner3 d n a b) st2)
        st)
    (path, true)

/-- The `while !stable` loop of `do_3opt`, with explicit fuel. -/
def loop3 (d : Mat) (n : ℕ) : ℕ → List ℕ → Option (List ℕ)
  | 0, _ => none
  | fuel + 1, path =>
    if (sweep3 d n path).2 then some (sweep3 d n path).1
    else loop3 d n fuel (sweep3 d n path).1

/-- Source `do_3opt` (fuelled). -/
def do_3opt (d : Mat) (fuel : ℕ) (start : Option (List ℕ)) : Option (ℚ × List ℕ) :=
  (loop3 d (initPath d start).length fuel (initPath d start)).map
    fun p => (tourLength d p, p)

/-- Modelled from the spec's words for claim C1: the cost the spec's case-0
table row claims, namely the sum of the new edges (a,b), (a+1,c), (b+1,c+1).
Kept separate from `swaps3` so the two can be compared. -/
def specSwap0 (d : Mat) (path : List ℕ) (n a b c : ℕ) : ℚ :=
  distAt d (path.getD a 0) (path.getD b 0) +
    distAt d (path.getD (a + 1) 0) (path.getD c 0) +
    distAt d (path.getD (b + 1) 0) (path.getD ((c + 1) % n) 0)

/-- Modelled from the spec's words for claim C4: the rotation of the subrange
of positions `a+1..c` of `s` by `b - a` positions (rotation to the left, so
that block `(a,b]` moves behind block `(b,c]`). -/
def specRotated (s : List ℕ) (a b c : ℕ) : List ℕ :=
  s.take (a + 1) ++ ((s.drop (a + 1)).take (c - a)).rotate (b - a) ++ s.drop (c + 1)

/-!  Checked (`Option`-valued) variants.  Rust indexing panics out of bounds;
the checked variants return `none` exactly where the source would panic, and
otherwise mirror the plain definitions.  -/

/-- Checked matrix access `self.distances[path[x]][path[y]]`, in the source's
evaluation order. -/
def accE (d : Mat) (path : List ℕ) (x y : ℕ) : Option ℚ := do
  let i ← path[x]?
  let row ← d[i]?
  let j ← path[y]?
  row[j]?

/-- Checked slice reversal: `path[s..e].reverse()` panics unless `s ≤ e ≤ len`. -/
def reverseSegmentC (p : List ℕ) (s e : ℕ) : Option (List ℕ) :=
  if s ≤ e ∧ e ≤ p.length then some (reverseSegment p s e) else none

/-- Checked `path.swap(i, j)`. -/
def swapC (l : List ℕ) (i j : ℕ) : Option (List ℕ) :=
  if i < l.length ∧ j < l.length then some (listSwap l i j) else none

/-- Checked pairwise-swap loop of `exchange`. -/
def swapLoopC (path : List ℕ) (a b k : ℕ) : Option (List ℕ) :=
  (List.range k).foldlM (fun p i => swapC p (a + i + 1) (b + i + 1)) path

/-- Checked `exchange`. -/
def exchangeC (path : List ℕ) (a b c : ℕ) : Option (List ℕ) :=
  if b - a = 0 ∨ c - b = 0 then some path
  else do
    let p1 ← swapLoopC path a b (min (b - a) (c - b))
    if b - a < c - b then exchangeC p1 b (b + (b - a)) c
    else if c - b < b - a then exchangeC p1 (a + (c - b)) b c
    else some p1
termination_by c - a
decreasing_by
  all_goals omega

/-- Checked 2-opt inner body. -/
def inner2C (d : Mat) (n a : ℕ) (st : List ℕ × Bool) (b : ℕ) : Option (List ℕ × Bool) := do
  let t1 ← accE d st.1 a b
  let t2 ← accE d st.1 (a + 1) ((b + 1) % n)
  let t3 ← accE d st.1 a (a + 1)
  let t4 ← accE d st.1 b ((b + 1) % n)
  if t1 + t2 - t3 - t4 < -epsTol then
    (reverseSegmentC st.1 (a + 1) (b + 1)).map fun p => (p, false)
  else pure st

/-- Checked 2-opt sweep. -/
def sweep2C (d : Mat) (n : ℕ) (path : List ℕ) : Option (List ℕ × Bool) :=
  (List.range n).foldlM
    (fun st a => (List.range' (a + 2) (n - (a + 2))).foldlM (inner2C d n a) st)
    (path, true)

/-- Checked 2-opt while loop. -/
def loop2C (d : Mat) (n : ℕ) : ℕ → List ℕ → Option (List ℕ)
  | 0, _ => none
  | fuel + 1, path => do
    let st ← sweep2C d n path
    if st.2 then pure st.1 else loop2C d n fuel st.1

/-- Checked cyclic length recomputation. -/
def tourLengthC (d : Mat) (path : List ℕ) : Option ℚ :=
  (List.range path.length).foldlM
    (fun acc i => do
      let x ← accE d path i ((i + 1) % path.length)
      pure (acc + x))
    0

/-- Checked `do_2opt`: `none` on a panic, and also when the fuel runs out. -/
def do_2optC (d : Mat) (fuel : ℕ) (start : Option (List ℕ)) : Option (ℚ × List ℕ) := do
  let p ← loop2C d (initPath d start).length fuel (initPath d start)
  let len ← tourLengthC d p
  pure (len, p)

/-- Checked sum of three matrix entries, used by the checked 3-opt body. -/
def edgeSumC (d : Mat) (path : List ℕ) (x1 y1 x2 y2 x3 y3 : ℕ) : Option ℚ := do
  let u ← accE d path x1 y1
  let v ← accE d path x2 y2
  let w ← accE d path x3 y3
  pure (u + v + w)

/-- Checked `swaps` vector of the 3-opt body, entries in source order. -/
def swaps3C (d : Mat) (path : List ℕ) (n a b c : ℕ) : Option (List ℚ) := do
  let s0 ← edgeSumC d path a (a + 1) b c (b + 1) ((c + 1) % n)
  let s1 ← edgeSumC d path a c (b + 1) b (a + 1) ((c + 1) % n)
  let s2 ← edgeSumC d path a b (a + 1) (b + 1) c ((c + 1) % n)
  let s3 ← edgeSumC d path a (b + 1) c b (a + 1) ((c + 1) % n)
  let s4 ← edgeSumC d path a b (a + 1) c (b + 1) ((c + 1) % n)
  let s5 ← edgeSumC d path a c (b + 1) (a + 1) b ((c + 1) % n)
  let s6 ← edgeSumC d path a (b + 1) c (a + 1) b ((c + 1) % n)
  pure [s0, s1, s2, s3, s4, s5, s6]

/-- Checked transform application; the source's `unreachable!()` arm is a
panic, hence `none`. -/
def apply3C (path : List ℕ) (a b c m : ℕ) : Option (List ℕ) :=
  match m with
  | 0 => reverseSegmentC path (b + 1) (c + 1)
  | 1 => reverseSegmentC path (a + 1) (c + 1)
  | 2 => reverseSegmentC path (a + 1) (b + 1)
  | 3 => do
    let p1 ← reverseSegmentC path (a + 1) (b + 1)
    exchangeC p1 a b c
  | 4 => do
    let p1 ← reverseSegmentC path (a + 1) (b + 1)
    reverseSegmentC p1 (b + 1) (c + 1)
  | 5 => do
    let p1 ← reverseSegmentC path (b + 1) (c + 1)
    exchangeC p1 a b c
  | 6 => exchangeC path a b c
  | _ => none

/-- Checked 3-opt inner body (`current` first, then `swaps`, as in the source). -/
def inner3C (d : Mat) (n a b : ℕ) (st : List ℕ × Bool) (c : ℕ) : Option (List ℕ × Bool) := do
  let cur ← edgeSumC d st.1 a (a + 1) b (b + 1) c ((c + 1) % n)
  let sw ← swaps3C d st.1 n a b c
  if sw.getD (minIdx sw) 0 - cur < -epsTol then
    (apply3C st.1 a b c (minIdx sw)).map fun p => (p, false)
  else pure st

/-- Checked 3-opt sweep. -/
def sweep3C (d : Mat) (n : ℕ) (path : List ℕ) : Option (List ℕ × Bool) :=
  (List.range n).foldlM
    (fun st a =>
      (List.range' (a + 1) (n - (a + 1))).foldlM
        (fun st2 b => (List.range' (b + 1) (n - (b + 1))).foldlM (inner3C d n a b) st2)
        st)
    (path, true)

/-- Checked 3-opt while loop. -/
def loop3C (d : Mat) (n : ℕ) : ℕ → List ℕ → Option (List ℕ)
  | 0, _ => none
  | fuel + 1, path => do
    let st ← sweep3C d n path
    if st.2 then pure st.1 else loop3C d n fuel st.1

/-- Checked `do_3opt`. -/
def do_3optC (d : Mat) (fuel : ℕ) (start : Option (List ℕ)) : Option (ℚ × List ℕ) := do
  let p ← loop3C d (initPath d start).length fuel (initPath d start)
  let len ← tourLengthC d p
  pure (len, p)

/-- Number of lengths of permutation tours strictly below the current tour's
length; the termination measure of both while loops. -/
def lenRank (d : Mat) (n : ℕ) (p : List ℕ) : ℕ :=
  ((((List.range n).permutations).map (tourLength d)).toFinset.filter
    (fun x => x < tourLength d p)).card

/-- The sub-list of positions `i..j-1` of `p` (notation for stating the
structural lemmas about `exchange` and slice reversal). -/
def seg (p : List ℕ) (i j : ℕ) : List ℕ := (p.take j).drop i

/-- Sum of the matrix entries along consecutive (non-cyclic) steps of a list
of indices; the open-path counterpart of `tourLength`, used to decompose the
cyclic sum along segment boundaries. -/
def consecSum (d : Mat) : List ℕ → ℚ
  | [] => 0
  | [_] => 0
  | x :: y :: rest => distAt d x y + consecSum d (y :: rest)

/-!  Theorems.  -/

/-- Fold bodies that preserve an invariant give folds that preserve it. -/
theorem foldl_inv {α β : Type} (Inv : α → Prop) {f : α → β → α} :
    ∀ (l : List β), (∀ st x, x ∈ l → Inv st → Inv (f st x)) →
      ∀ st, Inv st → Inv (l.foldl f st) := by
  intro l
  induction l with
  | nil => intro _ st h0; simpa using h0
  | cons x xs ih =>
    intro h st h0
    simp only [List.foldl_cons]
    exact ih (fun st2 y hy hI => h st2 y (List.mem_cons_of_mem _ hy) hI) _
      (h st x (List.mem_cons_self _ _) h0)

/-- An `Option`-monad fold whose body succeeds and agrees with a plain body on
every invariant state computes `some` of the plain fold. -/
theorem foldlM_eq_some {β σ : Type} (Inv : σ → Prop) :
    ∀ (l : List β) (bodyC : σ → β → Option σ) (body : σ → β → σ),
      (∀ st x, x ∈ l → Inv st → bodyC st x = some (body st x) ∧ Inv (body st x)) →
      ∀ st, Inv st → l.foldlM bodyC st = some (l.foldl body st) ∧ Inv (l.foldl body st) := by
  intro l
  induction l with
  | nil =>
    intro bodyC body _ st h0
    simp only [List.foldlM_nil, List.foldl_nil]
    exact ⟨rfl, h0⟩
  | cons x xs ih =>
    intro bodyC body h st h0
    have hx := h st x (List.mem_cons_self _ _) h0
    simp only [List.foldlM_cons, List.foldl_cons, hx.1, Option.bind_eq_bind,
      Option.some_bind]
    exact ih bodyC body (fun st2 y hy hI => h st2 y (List.mem_cons_of_mem _ hy) hI) _ hx.2

theorem listSwap_length (l : List ℕ) (i j : ℕ) : (listSwap l i j).length = l.length := by
  simp [listSwap]

theorem getD_append_cons (u : List ℕ) (x : ℕ) (v : List ℕ) :
    (u ++ x :: v).getD u.length 0 = x := by
  simp [List.getD_eq_getElem?_getD, List.getElem?_append_right (Nat.le_refl u.length)]

theorem set_append_cons (u : List ℕ) (x : ℕ) (v : List ℕ) (w : ℕ) :
    (u ++ x :: v).set u.length w = u ++ w :: v := by
  rw [List.set_append_right _ _ (Nat.le_refl u.length)]
  simp

/-- A single swap of two aligned positions exchanges the two elements. -/
theorem listSwap_blocks (u m w : List ℕ) (x y : ℕ) (i j : ℕ)
    (hi : i = u.length) (hj : j = u.length + 1 + m.length) :
    listSwap (u ++ x :: (m ++ y :: w)) i j = u ++ y :: (m ++ x :: w) := by
  subst hi hj
  have h2 : (u ++ x :: m).length = u.length + 1 + m.length := by simp; omega
  have h3 : (u ++ y :: m).length = u.length + 1 + m.length := by simp; omega
  have gj : (u ++ x :: (m ++ y :: w)).getD (u.length + 1 + m.length) 0 = y := by
    rw [show u ++ x :: (m ++ y :: w) = (u ++ x :: m) ++ y :: w by simp, ← h2,
      getD_append_cons]
  have gi : (u ++ x :: (m ++ y :: w)).getD u.length 0 = x := getD_append_cons u x (m ++ y :: w)
  have s1 : (u ++ x :: (m ++ y :: w)).set u.length y = u ++ y :: (m ++ y :: w) :=
    set_append_cons u x (m ++ y :: w) y
  have s2 : (u ++ y :: (m ++ y :: w)).set (u.length + 1 + m.length) x =
      u ++ y :: (m ++ x :: w) := by
    rw [show u ++ y :: (m ++ y :: w) = (u ++ y :: m) ++ y :: w by simp, ← h3,
      set_append_cons]
    simp
  unfold listSwap
  rw [gj, gi, s1, s2]

/-- The pairwise-swap loop exchanges two aligned blocks of equal length `k`
(separated by `m`), leaving everything else in place. -/
theorem swapLoop_blocks :
    ∀ (k : ℕ) (u p m q w : List ℕ) (a b : ℕ),
      u.length = a + 1 → p.length = k → q.length = k → b + 1 = a + 1 + k + m.length →
      swapLoop (u ++ p ++ m ++ q ++ w) a b k = u ++ q ++ m ++ p ++ w := by
  intro k
  induction k with
  | zero =>
    intro u p m q w a b hu hp hq _
    have hp0 : p = [] := List.eq_nil_of_length_eq_zero hp
    have hq0 : q = [] := List.eq_nil_of_length_eq_zero hq
    subst hp0 hq0
    simp [swapLoop]
  | succ k ih =>
    intro u p m q w a b hu hp hq hb
    rcases List.eq_nil_or_concat p with rfl | ⟨p1, x, rfl⟩
    · simp at hp
    rcases List.eq_nil_or_concat q with rfl | ⟨q1, y, rfl⟩
    · simp at hq
    have hp1 : p1.length = k := by simpa using hp
    have hq1 : q1.length = k := by simpa using hq
    have unf : ∀ (L : List ℕ),
        swapLoop L a b (k + 1) = listSwap (swapLoop L a b k) (a + k + 1) (b + k + 1) := by
      intro L
      unfold swapLoop
      rw [List.range_succ, List.foldl_append]
      simp
    have hshape : u ++ p1.concat x ++ m ++ q1.concat y ++ w =
        u ++ p1 ++ (x :: m) ++ q1 ++ (y :: w) := by simp
    have step : swapLoop (u ++ p1 ++ (x :: m) ++ q1 ++ (y :: w)) a b k =
        u ++ q1 ++ (x :: m) ++ p1 ++ (y :: w) :=
      ih u p1 (x :: m) q1 (y :: w) a b hu hp1 hq1 (by simp; omega)
    rw [hshape, unf, step]
    have hfin : listSwap ((u ++ q1) ++ x :: ((m ++ p1) ++ y :: w)) (a + k + 1) (b + k + 1) =
        (u ++ q1) ++ y :: ((m ++ p1) ++ x :: w) :=
      listSwap_blocks (u ++ q1) (m ++ p1) w x y _ _
        (by simp [hu, hq1]; omega) (by simp [hu, hq1, hp1]; omega)
    have e1 : u ++ q1 ++ (x :: m) ++ p1 ++ (y :: w) =
        (u ++ q1) ++ x :: ((m ++ p1) ++ y :: w) := by simp
    rw [e1, hfin]
    simp

/-- The structural master lemma for `exchange`: applied at the boundaries of
the block decomposition `u · v₂ · v₃ · w` (with `|u| = a+1`), it exchanges the
two middle blocks. -/
theorem exchange_blocks_aux :
    ∀ (N : ℕ) (v₂ v₃ u w : List ℕ) (a b c : ℕ),
      v₂.length + v₃.length ≤ N →
      u.length = a + 1 → b = a + v₂.length → c = b + v₃.length →
      exchange (u ++ v₂ ++ v₃ ++ w) a b c = u ++ v₃ ++ v₂ ++ w := by
  intro N
  induction N with
  | zero =>
    intro v₂ v₃ u w a b c hN hu hb hc
    have h2 : v₂ = [] := List.eq_nil_of_length_eq_zero (by omega)
    have h3 : v₃ = [] := List.eq_nil_of_length_eq_zero (by omega)
    subst h2 h3
    rw [exchange]
    simp
    omega
  | succ N ih =>
    intro v₂ v₃ u w a b c hN hu hb hc
    by_cases h0 : b - a = 0 ∨ c - b = 0
    · have : v₂ = [] ∨ v₃ = [] := by
        rcases h0 with h | h
        · exact Or.inl (List.eq_nil_of_length_eq_zero (by omega))
        · exact Or.inr (List.eq_nil_of_length_eq_zero (by omega))
      rw [exchange, if_pos h0]
      rcases this with rfl | rfl <;> simp
    · have hv2 : 1 ≤ v₂.length := by omega
      have hv3 : 1 ≤ v₃.length := by omega
      have hlen2 : b - a = v₂.length := by omega
      have hlen3 : c - b = v₃.length := by omega
      rw [exchange, if_neg h0]
      rcases Nat.lt_trichotomy (b - a) (c - b) with hlt | heq | hgt
      · -- |v₂| < |v₃|: swap v₂ with the first |v₂| elements of v₃
        rw [if_pos hlt]
        obtain ⟨t, r, ht, htl⟩ : ∃ t r, v₃ = t ++ r ∧ t.length = b - a :=
          ⟨v₃.take (b - a), v₃.drop (b - a), (List.take_append_drop _ _).symm,
            by rw [List.length_take]; omega⟩
        subst ht
        have hrl : 1 ≤ r.length := by simp at hc ⊢; omega
        have hmin : min (b - a) (c - b) = b - a := by omega
        have hswap : swapLoop (u ++ v₂ ++ (t ++ r) ++ w) a b (b - a) =
            u ++ t ++ [] ++ v₂ ++ (r ++ w) :=
          calc swapLoop (u ++ v₂ ++ (t ++ r) ++ w) a b (b - a)
              = swapLoop (u ++ v₂ ++ [] ++ t ++ (r ++ w)) a b (b - a) := by simp
            _ = u ++ t ++ [] ++ v₂ ++ (r ++ w) :=
                swapLoop_blocks (b - a) u v₂ [] t (r ++ w) a b hu (by omega) htl
                  (by simp; omega)
        rw [hmin, hswap]
        have hrec : exchange ((u ++ t) ++ v₂ ++ r ++ w) b (b + (b - a)) c =
            (u ++ t) ++ r ++ v₂ ++ w :=
          ih v₂ r (u ++ t) w b (b + (b - a)) c
            (by simp at hc ⊢; omega) (by simp [hu]; omega) (by omega)
            (by simp at hc ⊢; omega)
        calc exchange (u ++ t ++ [] ++ v₂ ++ (r ++ w)) b (b + (b - a)) c
            = exchange ((u ++ t) ++ v₂ ++ r ++ w) b (b + (b - a)) c := by simp
          _ = (u ++ t) ++ r ++ v₂ ++ w := hrec
          _ = u ++ (t ++ r) ++ v₂ ++ w := by simp
      · -- equal lengths: single block swap, no recursion
        rw [if_neg (by omega), if_neg (by omega)]
        have hmin : min (b - a) (c - b) = b - a := by omega
        rw [hmin]
        calc swapLoop (u ++ v₂ ++ v₃ ++ w) a b (b - a)
            = swapLoop (u ++ v₂ ++ [] ++ v₃ ++ w) a b (b - a) := by simp
          _ = u ++ v₃ ++ [] ++ v₂ ++ w :=
              swapLoop_blocks (b - a) u v₂ [] v₃ w a b hu (by omega) (by omega)
                (by simp; omega)
          _ = u ++ v₃ ++ v₂ ++ w := by simp
      · -- |v₃| < |v₂|: swap the first |v₃| elements of v₂ with v₃
        rw [if_neg (by omega), if_pos hgt]
        obtain ⟨t, r, ht, htl⟩ : ∃ t r, v₂ = t ++ r ∧ t.length = c - b :=
          ⟨v₂.take (c - b), v₂.drop (c - b), (List.take_append_drop _ _).symm,
            by rw [List.length_take]; omega⟩
        subst ht
        have hrl : 1 ≤ r.length := by simp at hb ⊢; omega
        have hmin : min (b - a) (c - b) = c - b := by omega
        have hswap : swapLoop (u ++ (t ++ r) ++ v₃ ++ w) a b (c - b) =
            u ++ v₃ ++ r ++ t ++ w :=
          calc swapLoop (u ++ (t ++ r) ++ v₃ ++ w) a b (c - b)
              = swapLoop (u ++ t ++ r ++ v₃ ++ w) a b (c - b) := by simp
            _ = u ++ v₃ ++ r ++ t ++ w :=
                swapLoop_blocks (c - b) u t r v₃ w a b hu htl (by omega)
                  (by simp at hb ⊢; omega)
        rw [hmin, hswap]
        have hrec : exchange ((u ++ v₃) ++ r ++ t ++ w) (a + (c - b)) b c =
            (u ++ v₃) ++ t ++ r ++ w :=
          ih r t (u ++ v₃) w (a + (c - b)) b c
            (by simp at hb ⊢; omega) (by simp [hu]; omega) (by simp at hb ⊢; omega)
            (by omega)
        calc exchange (u ++ v₃ ++ r ++ t ++ w) (a + (c - b)) b c
            = exchange ((u ++ v₃) ++ r ++ t ++ w) (a + (c - b)) b c := by simp
          _ = (u ++ v₃) ++ t ++ r ++ w := hrec
          _ = u ++ v₃ ++ (t ++ r) ++ w := by simp

/-- The structural master lemma for `exchange`, stated without the auxiliary
bound. -/
theorem exchange_blocks (v₂ v₃ u w : List ℕ) (a b c : ℕ)
    (hu : u.length = a + 1) (hb : b = a + v₂.length) (hc : c = b + v₃.length) :
    exchange (u ++ v₂ ++ v₃ ++ w) a b c = u ++ v₃ ++ v₂ ++ w :=
  exchange_blocks_aux (v₂.length + v₃.length) v₂ v₃ u w a b c (Nat.le_refl _) hu hb hc

theorem seg_length (p : List ℕ) (i j : ℕ) (h : j ≤ p.length) :
    (seg p i j).length = j - i := by
  simp [seg, Nat.min_eq_left h]

theorem seg_split (p : List ℕ) (i j : ℕ) (h : i ≤ j) :
    p.take i ++ seg p i j ++ p.drop j = p := by
  have h1 : p.take i = (p.take j).take i := by rw [List.take_take, Nat.min_eq_left h]
  simp only [seg]
  rw [h1, List.take_append_drop, List.take_append_drop]

theorem drop_eq_seg (p : List ℕ) (i j : ℕ) (hij : i ≤ j) (hj : j ≤ p.length) :
    p.drop i = seg p i j ++ p.drop j := by
  conv_lhs => rw [← List.take_append_drop j p]
  rw [List.drop_append_of_le_length (by rw [List.length_take]; omega)]
  simp [seg]

theorem seg_append (p : List ℕ) (i j k : ℕ) (hij : i ≤ j) (hjk : j ≤ k)
    (hk : k ≤ p.length) :
    seg p i j ++ seg p j k = seg p i k := by
  have hq : (p.take k).length = k := by rw [List.length_take]; omega
  have h2 := (drop_eq_seg (p.take k) i j hij (by rw [hq]; exact hjk)).symm
  simpa [seg, List.take_take, Nat.min_eq_left hjk] using h2

/-- Decomposition of `p` at a triple of cut points. -/
theorem tour_decomp (p : List ℕ) (a b c : ℕ) (hab : a ≤ b) (hbc : b ≤ c)
    (hc : c < p.length) :
    p = p.take (a + 1) ++ seg p (a + 1) (b + 1) ++ seg p (b + 1) (c + 1) ++ p.drop (c + 1) := by
  conv_lhs => rw [← seg_split p (a + 1) (b + 1) (by omega)]
  rw [drop_eq_seg p (b + 1) (c + 1) (by omega) (by omega)]
  simp [List.append_assoc]

/-- What `exchange` does to an in-bounds triple `a ≤ b ≤ c < |p|`: the blocks
`(a,b]` and `(b,c]` trade places. -/
theorem exchange_decomp (p : List ℕ) (a b c : ℕ) (hab : a ≤ b) (hbc : b ≤ c)
    (hc : c < p.length) :
    exchange p a b c =
      p.take (a + 1) ++ seg p (b + 1) (c + 1) ++ seg p (a + 1) (b + 1) ++ p.drop (c + 1) := by
  have hu : (p.take (a + 1)).length = a + 1 := by rw [List.length_take]; omega
  have h2 : (seg p (a + 1) (b + 1)).length = b + 1 - (a + 1) :=
    seg_length p (a + 1) (b + 1) (by omega)
  have h3 : (seg p (b + 1) (c + 1)).length = c + 1 - (b + 1) :=
    seg_length p (b + 1) (c + 1) (by omega)
  conv_lhs => rw [tour_decomp p a b c hab hbc hc]
  exact exchange_blocks (seg p (a + 1) (b + 1)) (seg p (b + 1) (c + 1))
    (p.take (a + 1)) (p.drop (c + 1)) a b c hu (by omega) (by omega)

/-- C3: for all sequences `V1, V2, V3, V4` with `|V1| ≥ 1`, `exchange` applied
to `V1·V2·V3·V4` at boundaries `(|V1|-1, |V1|+|V2|-1, |V1|+|V2|+|V3|-1)`
yields exactly `V1·V3·V2·V4` (so the two blocks are swapped with their
internal order preserved, everything outside them unchanged, and the call is
a no-op when either middle block is empty). -/
theorem C3_exchange_concat (v₁ v₂ v₃ v₄ : List ℕ) (h : 1 ≤ v₁.length) :
    exchange (v₁ ++ v₂ ++ v₃ ++ v₄) (v₁.length - 1) (v₁.length + v₂.length - 1)
      (v₁.length + v₂.length + v₃.length - 1) = v₁ ++ v₃ ++ v₂ ++ v₄ :=
  exchange_blocks v₂ v₃ v₁ v₄ _ _ _ (by omega) (by omega) (by omega)

/-- Witness for C3 at concrete sequences. -/
theorem C3_witness :
    1 ≤ ([9] : List ℕ).length ∧
      exchange ([9] ++ [1, 2] ++ [3, 4, 5] ++ [6])
        (([9] : List ℕ).length - 1)
        (([9] : List ℕ).length + ([1, 2] : List ℕ).length - 1)
        (([9] : List ℕ).length + ([1, 2] : List ℕ).length + ([3, 4, 5] : List ℕ).length - 1) =
        [9] ++ [3, 4, 5] ++ [1, 2] ++ [6] :=
  ⟨by decide, C3_exchange_concat [9] [1, 2] [3, 4, 5] [6] (by decide)⟩

/-- C4 counterexample: with `c = length s` allowed (as the claim states), the
source's `path.swap` indexes out of bounds (a panic in Rust; a defaulted junk
write in the embedding), so the rotation law fails at `s = [5,7]`, `a = 0`,
`b = 1`, `c = 2 = length s`. -/
theorem C4_counterexample :
    ¬ (∀ (s : List ℕ) (a b c : ℕ), a ≤ b → b ≤ c → c ≤ s.length →
        exchange s a b c = specRotated s a b c ∧
          exchange (exchange s a b c) a (a + (c - b)) c = s) := by
  intro h
  have h1 := (h [5, 7] 0 1 2 (by omega) (by omega) (by decide)).1
  have h2 : exchange [5, 7] 0 1 2 = [5, 0] := by
    rw [exchange]
    decide
  have h3 : specRotated [5, 7] 0 1 2 = [5, 7] := by decide
  rw [h2, h3] at h1
  exact absurd h1 (by decide)

/-- C4 amended: for `0 ≤ a ≤ b ≤ c < length s` (strict at the right end, the
only change the counterexample forces), `exchange s a b c` is exactly the
rotation of positions `a+1..c` by `b-a`, and reapplying `exchange` with
middle boundary `a + (c-b)` restores `s`. -/
theorem C4_amended (s : List ℕ) (a b c : ℕ) (hab : a ≤ b) (hbc : b ≤ c)
    (hc : c < s.length) :
    exchange s a b c = specRotated s a b c ∧
      exchange (exchange s a b c) a (a + (c - b)) c = s := by
  have hu : (s.take (a + 1)).length = a + 1 := by rw [List.length_take]; omega
  have h2 : (seg s (a + 1) (b + 1)).length = b + 1 - (a + 1) :=
    seg_length s (a + 1) (b + 1) (by omega)
  have h3 : (seg s (b + 1) (c + 1)).length = c + 1 - (b + 1) :=
    seg_length s (b + 1) (c + 1) (by omega)
  constructor
  · rw [exchange_decomp s a b c hab hbc hc]
    simp only [specRotated]
    have hmid : (s.drop (a + 1)).take (c - a) = seg s (a + 1) (c + 1) := by
      rw [List.take_drop, seg, show a + 1 + (c - a) = c + 1 by omega]
    rw [hmid, ← seg_append s (a + 1) (b + 1) (c + 1) (by omega) (by omega) (by omega)]
    rw [List.rotate_eq_drop_append_take (by rw [List.length_append, h2, h3]; omega)]
    rw [List.drop_left' (by omega), List.take_left' (by omega)]
    simp [List.append_assoc]
  · rw [exchange_decomp s a b c hab hbc hc]
    rw [exchange_blocks (seg s (b + 1) (c + 1)) (seg s (a + 1) (b + 1))
      (s.take (a + 1)) (s.drop (c + 1)) a (a + (c - b)) c hu (by omega) (by omega)]
    exact (tour_decomp s a b c hab hbc hc).symm

/-- Witness for the amended C4 at a concrete sequence. -/
theorem C4_witness :
    (0 : ℕ) ≤ 2 ∧ (2 : ℕ) ≤ 5 ∧ 5 < ([9, 1, 2, 3, 4, 5, 6] : List ℕ).length ∧
      (exchange [9, 1, 2, 3, 4, 5, 6] 0 2 5 = specRotated [9, 1, 2, 3, 4, 5, 6] 0 2 5 ∧
        exchange (exchange [9, 1, 2, 3, 4, 5, 6] 0 2 5) 0 (0 + (5 - 2)) 5 =
          [9, 1, 2, 3, 4, 5, 6]) :=
  ⟨by omega, by omega, by decide,
    C4_amended [9, 1, 2, 3, 4, 5, 6] 0 2 5 (by omega) (by omega) (by decide)⟩

/-- C1 counterexample: at the tour `[0,1,2,3,4]` with `a = 0`, `b = 2`,
`c = 3` and a symmetric zero-diagonal matrix, the cost the code evaluates
as `swaps[0]` (value 2) differs from the spec's claimed sum of the edges
(a,b), (a+1,c), (b+1,c+1) (value 10). -/
theorem C1_counterexample :
    (swaps3 [[0, 1, 5, 0, 0], [1, 0, 0, 5, 0], [5, 0, 0, 1, 0], [0, 5, 1, 0, 0],
        [0, 0, 0, 0, 0]] [0, 1, 2, 3, 4] 5 0 2 3).getD 0 0 ≠
      specSwap0 [[0, 1, 5, 0, 0], [1, 0, 0, 5, 0], [5, 0, 0, 1, 0], [0, 5, 1, 0, 0],
        [0, 0, 0, 0, 0]] [0, 1, 2, 3, 4] 5 0 2 3 := by
  norm_num [swaps3, specSwap0, distAt]

/-- C1 amended: the case-0 candidate cost (the case whose transform is
reverse `(b,c]`) is the sum of the three edges (a,a+1), (b,c), (b+1,c+1) —
the edge (a,a+1) is kept by this move; the spec's table row lists the edge
set of case 4 instead. -/
theorem C1_amended (d : Mat) (path : List ℕ) (n a b c : ℕ) :
    (swaps3 d path n a b c).getD 0 0 =
      distAt d (path.getD a 0) (path.getD (a + 1) 0) +
        distAt d (path.getD b 0) (path.getD c 0) +
        distAt d (path.getD (b + 1) 0) (path.getD ((c + 1) % n) 0) := rfl

theorem reverseSegment_perm (p : List ℕ) (s e : ℕ) (hse : s ≤ e) :
    (reverseSegment p s e).Perm p := by
  conv_rhs => rw [← seg_split p s e hse]
  exact ((List.Perm.refl _).append ((seg p s e).reverse_perm)).append (List.Perm.refl _)

theorem reverseSegment_head? (p : List ℕ) (s e : ℕ) (hs : 1 ≤ s) :
    (reverseSegment p s e).head? = p.head? := by
  cases p with
  | nil => simp [reverseSegment]
  | cons x t =>
    cases s with
    | zero => omega
    | succ s2 => simp [reverseSegment]

theorem exchange_perm (p : List ℕ) (a b c : ℕ) (hab : a ≤ b) (hbc : b ≤ c)
    (hc : c < p.length) : (exchange p a b c).Perm p := by
  rw [exchange_decomp p a b c hab hbc hc]
  conv_rhs => rw [tour_decomp p a b c hab hbc hc]
  refine List.Perm.append ?_ (List.Perm.refl _)
  simp only [List.append_assoc]
  exact List.Perm.append_left _ List.perm_append_comm

theorem exchange_head? (p : List ℕ) (a b c : ℕ) (hab : a ≤ b) (hbc : b ≤ c)
    (hc : c < p.length) : (exchange p a b c).head? = p.head? := by
  rw [exchange_decomp p a b c hab hbc hc]
  have hne : p.take (a + 1) ≠ [] := by
    have : (p.take (a + 1)).length = a + 1 := by rw [List.length_take]; omega
    intro hcon
    rw [hcon] at this
    simp at this
  rw [List.append_assoc, List.append_assoc, List.head?_append_of_ne_nil _ hne,
    List.head?_take]
  simp

theorem apply3_perm (p : List ℕ) (a b c m : ℕ) (hab : a < b) (hbc : b < c)
    (hc : c < p.length) : (apply3 p a b c m).Perm p := by
  have h0 : (reverseSegment p (a + 1) (b + 1)).Perm p :=
    reverseSegment_perm p (a + 1) (b + 1) (by omega)
  have h1 : (reverseSegment p (b + 1) (c + 1)).Perm p :=
    reverseSegment_perm p (b + 1) (c + 1) (by omega)
  match m with
  | 0 => exact h1
  | 1 => exact reverseSegment_perm p (a + 1) (c + 1) (by omega)
  | 2 => exact h0
  | 3 =>
    exact (exchange_perm _ a b c (by omega) (by omega)
      (by rw [h0.length_eq]; omega)).trans h0
  | 4 =>
    exact (reverseSegment_perm _ (b + 1) (c + 1) (by omega)).trans h0
  | 5 =>
    exact (exchange_perm _ a b c (by omega) (by omega)
      (by rw [h1.length_eq]; omega)).trans h1
  | 6 => exact exchange_perm p a b c (by omega) (by omega) hc
  | (mm + 7) => exact List.Perm.refl p

theorem apply3_head? (p : List ℕ) (a b c m : ℕ) (hab : a < b) (hbc : b < c)
    (hc : c < p.length) : (apply3 p a b c m).head? = p.head? := by
  have h0 : (reverseSegment p (a + 1) (b + 1)).Perm p :=
    reverseSegment_perm p (a + 1) (b + 1) (by omega)
  have h1 : (reverseSegment p (b + 1) (c + 1)).Perm p :=
    reverseSegment_perm p (b + 1) (c + 1) (by omega)
  match m with
  | 0 => exact reverseSegment_head? p (b + 1) (c + 1) (by omega)
  | 1 => exact reverseSegment_head? p (a + 1) (c + 1) (by omega)
  | 2 => exact reverseSegment_head? p (a + 1) (b + 1) (by omega)
  | 3 =>
    rw [show apply3 p a b c 3 = exchange (reverseSegment p (a + 1) (b + 1)) a b c from rfl,
      exchange_head? _ a b c (by omega) (by omega) (by rw [h0.length_eq]; omega),
      reverseSegment_head? p (a + 1) (b + 1) (by omega)]
  | 4 =>
    rw [show apply3 p a b c 4 =
        reverseSegment (reverseSegment p (a + 1) (b + 1)) (b + 1) (c + 1) from rfl,
      reverseSegment_head? _ (b + 1) (c + 1) (by omega),
      reverseSegment_head? p (a + 1) (b + 1) (by omega)]
  | 5 =>
    rw [show apply3 p a b c 5 = exchange (reverseSegment p (b + 1) (c + 1)) a b c from rfl,
      exchange_head? _ a b c (by omega) (by omega) (by rw [h1.length_eq]; omega),
      reverseSegment_head? p (b + 1) (c + 1) (by omega)]
  | 6 => exact exchange_head? p a b c (by omega) (by omega) hc
  | (mm + 7) => rfl

/-- Structural invariant of one 2-opt sweep: the result is a permutation of
the input with the same head, and a sweep that reports stable did not touch
the tour. -/
theorem sweep2_struct (d : Mat) (n : ℕ) (path₀ : List ℕ) :
    (sweep2 d n path₀).1.Perm path₀ ∧ (sweep2 d n path₀).1.head? = path₀.head? ∧
      ((sweep2 d n path₀).2 = true → (sweep2 d n path₀).1 = path₀) := by
  unfold sweep2
  refine foldl_inv
    (fun st => st.1.Perm path₀ ∧ st.1.head? = path₀.head? ∧ (st.2 = true → st.1 = path₀))
    _ ?_ (path₀, true) ⟨List.Perm.refl _, rfl, fun _ => rfl⟩
  intro st a _ hI
  refine foldl_inv
    (fun st => st.1.Perm path₀ ∧ st.1.head? = path₀.head? ∧ (st.2 = true → st.1 = path₀))
    _ ?_ st hI
  intro st2 b hb hI2
  have hb2 := List.mem_range'_1.mp hb
  unfold inner2
  split
  · refine ⟨(reverseSegment_perm st2.1 (a + 1) (b + 1) (by omega)).trans hI2.1, ?_, ?_⟩
    · rw [reverseSegment_head? st2.1 (a + 1) (b + 1) (by omega)]
      exact hI2.2.1
    · intro hcon
      simp at hcon
  · exact hI2

/-- Structural invariant of one 3-opt sweep. -/
theorem sweep3_struct (d : Mat) (n : ℕ) (path₀ : List ℕ) (hn : path₀.length = n) :
    (sweep3 d n path₀).1.Perm path₀ ∧ (sweep3 d n path₀).1.head? = path₀.head? ∧
      ((sweep3 d n path₀).2 = true → (sweep3 d n path₀).1 = path₀) := by
  unfold sweep3
  refine foldl_inv
    (fun st => st.1.Perm path₀ ∧ st.1.head? = path₀.head? ∧ (st.2 = true → st.1 = path₀))
    _ ?_ (path₀, true) ⟨List.Perm.refl _, rfl, fun _ => rfl⟩
  intro st a ha hI
  refine foldl_inv
    (fun st => st.1.Perm path₀ ∧ st.1.head? = path₀.head? ∧ (st.2 = true → st.1 = path₀))
    _ ?_ st hI
  intro st2 b hb hI2
  refine foldl_inv
    (fun st => st.1.Perm path₀ ∧ st.1.head? = path₀.head? ∧ (st.2 = true → st.1 = path₀))
    _ ?_ st2 hI2
  intro st3 c hc hI3
  have ha2 := List.mem_range.mp ha
  have hb2 := List.mem_range'_1.mp hb
  have hc2 := List.mem_range'_1.mp hc
  have hlen : st3.1.length = n := by rw [hI3.1.length_eq, hn]
  unfold inner3
  split
  · refine ⟨(apply3_perm st3.1 a b c _ (by omega) (by omega) (by omega)).trans hI3.1,
      ?_, ?_⟩
    · rw [apply3_head? st3.1 a b c _ (by omega) (by omega) (by omega)]
      exact hI3.2.1
    · intro hcon
      simp at hcon
  · exact hI3

/-- When the 2-opt while loop returns within its fuel, the result is a
rearrangement of the input with the same head, and one more sweep over it is
stable and leaves it unchanged. -/
theorem loop2_some (d : Mat) (n : ℕ) :
    ∀ (f : ℕ) (p q : List ℕ), loop2 d n f p = some q →
      q.Perm p ∧ q.head? = p.head? ∧ sweep2 d n q = (q, true) := by
  intro f
  induction f with
  | zero => intro p q h; simp [loop2] at h
  | succ f ih =>
    intro p q h
    simp only [loop2] at h
    by_cases hst : (sweep2 d n p).2
    · rw [if_pos hst] at h
      have hq : (sweep2 d n p).1 = q := Option.some.inj h
      have hs := sweep2_struct d n p
      have heq : (sweep2 d n p).1 = p := hs.2.2 hst
      have hqp : q = p := by rw [← hq, heq]
      subst hqp
      exact ⟨List.Perm.refl _, rfl, Prod.ext heq hst⟩
    · rw [if_neg hst] at h
      have hs := sweep2_struct d n p
      have ihh := ih (sweep2 d n p).1 q h
      exact ⟨ihh.1.trans hs.1, by rw [ihh.2.1, hs.2.1], ihh.2.2⟩

/-- The 3-opt analogue of `loop2_some`. -/
theorem loop3_some (d : Mat) (n : ℕ) :
    ∀ (f : ℕ) (p q : List ℕ), p.length = n → loop3 d n f p = some q →
      q.Perm p ∧ q.head? = p.head? ∧ sweep3 d n q = (q, true) := by
  intro f
  induction f with
  | zero => intro p q _ h; simp [loop3] at h
  | succ f ih =>
    intro p q hp h
    simp only [loop3] at h
    by_cases hst : (sweep3 d n p).2
    · rw [if_pos hst] at h
      have hq : (sweep3 d n p).1 = q := Option.some.inj h
      have hs := sweep3_struct d n p hp
      have heq : (sweep3 d n p).1 = p := hs.2.2 hst
      have hqp : q = p := by rw [← hq, heq]
      subst hqp
      exact ⟨List.Perm.refl _, rfl, Prod.ext heq hst⟩
    · rw [if_neg hst] at h
      have hs := sweep3_struct d n p hp
      have ihh := ih (sweep3 d n p).1 q (by rw [hs.1.length_eq, hp]) h
      exact ⟨ihh.1.trans hs.1, by rw [ihh.2.1, hs.2.1], ihh.2.2⟩

/-- C6: for both optimizers, the element at position 0 of the returned tour
equals the element at position 0 of the starting tour (the default identity
tour or any supplied one): no reversal or exchange ever moves index 0. -/
theorem C6_head_fixed (d : Mat) (fuel : ℕ) (start : Option (List ℕ)) :
    (∀ L T, do_2opt d fuel start = some (L, T) → T.head? = (initPath d start).head?) ∧
    (∀ L T, do_3opt d fuel start = some (L, T) → T.head? = (initPath d start).head?) := by
  constructor
  · intro L T h
    unfold do_2opt at h
    rw [Option.map_eq_some'] at h
    obtain ⟨p, hp, hpt⟩ := h
    rw [Prod.mk.injEq] at hpt
    obtain ⟨_, rfl⟩ := hpt
    exact (loop2_some d _ fuel _ p hp).2.1
  · intro L T h
    unfold do_3opt at h
    rw [Option.map_eq_some'] at h
    obtain ⟨p, hp, hpt⟩ := h
    rw [Prod.mk.injEq] at hpt
    obtain ⟨_, rfl⟩ := hpt
    exact (loop3_some d _ fuel _ p rfl hp).2.1

/-- Witness for C6 on the one-point instance (both optimizers return within
one sweep of fuel). -/
theorem C6_witness :
    do_2opt [[0]] 1 none = some (0, [0]) ∧ do_3opt [[0]] 1 none = some (0, [0]) ∧
      ([0] : List ℕ).head? = (initPath [[0]] none).head? ∧
      ([0] : List ℕ).head? = (initPath [[0]] none).head? := by
  have h2 : do_2opt [[0]] 1 none = some (0, [0]) := by
    norm_num [do_2opt, initPath, matSize, loop2, sweep2, tourLength, inner2, distAt,
      List.range_succ]
  have h3 : do_3opt [[0]] 1 none = some (0, [0]) := by
    norm_num [do_3opt, initPath, matSize, loop3, sweep3, tourLength, inner3, distAt,
      List.range_succ]
  exact ⟨h2, h3, (C6_head_fixed [[0]] 1 none).1 0 [0] h2,
    (C6_head_fixed [[0]] 1 none).2 0 [0] h3⟩

/-- C5: for every matrix of size n, both optimizers return a tour that is a
permutation of `0..n-1`, whether started from the default identity tour or
from any supplied permutation of `0..n-1`. -/
theorem C5_permutation (d : Mat) (fuel : ℕ) (start : Option (List ℕ))
    (hstart : ∀ s, start = some s → s.Perm (List.range (matSize d))) :
    (∀ L T, do_2opt d fuel start = some (L, T) → T.Perm (List.range (matSize d))) ∧
    (∀ L T, do_3opt d fuel start = some (L, T) → T.Perm (List.range (matSize d))) := by
  have hinit : (initPath d start).Perm (List.range (matSize d)) := by
    cases start with
    | none => exact List.Perm.refl _
    | some s => exact hstart s rfl
  constructor
  · intro L T h
    unfold do_2opt at h
    rw [Option.map_eq_some'] at h
    obtain ⟨p, hp, hpt⟩ := h
    rw [Prod.mk.injEq] at hpt
    obtain ⟨_, rfl⟩ := hpt
    exact ((loop2_some d _ fuel _ p hp).1).trans hinit
  · intro L T h
    unfold do_3opt at h
    rw [Option.map_eq_some'] at h
    obtain ⟨p, hp, hpt⟩ := h
    rw [Prod.mk.injEq] at hpt
    obtain ⟨_, rfl⟩ := hpt
    exact ((loop3_some d _ fuel _ p rfl hp).1).trans hinit

/-- Witness for C5: a 2-point instance with the identity default start. -/
theorem C5_witness :
    (∀ s, (none : Option (List ℕ)) = some s → s.Perm (List.range (matSize [[0, 1], [1, 0]]))) ∧
      do_2opt [[0, 1], [1, 0]] 1 none = some (2, [0, 1]) ∧
      do_3opt [[0, 1], [1, 0]] 1 none = some (2, [0, 1]) ∧
      ([0, 1] : List ℕ).Perm (List.range (matSize [[0, 1], [1, 0]])) ∧
      ([0, 1] : List ℕ).Perm (List.range (matSize [[0, 1], [1, 0]])) := by
  have h2 : do_2opt [[0, 1], [1, 0]] 1 none = some (2, [0, 1]) := by
    norm_num [do_2opt, initPath, matSize, loop2, sweep2, tourLength, inner2, distAt,
      List.range_succ]
  have h3 : do_3opt [[0, 1], [1, 0]] 1 none = some (2, [0, 1]) := by
    norm_num [do_3opt, initPath, matSize, loop3, sweep3, tourLength, inner3, distAt,
      List.range_succ]
  have hno : ∀ s, (none : Option (List ℕ)) = some s →
      s.Perm (List.range (matSize [[0, 1], [1, 0]])) := by
    intro s h
    cases h
  exact ⟨hno, h2, h3,
    (C5_permutation [[0, 1], [1, 0]] 1 none hno).1 2 [0, 1] h2,
    (C5_permutation [[0, 1], [1, 0]] 1 none hno).2 2 [0, 1] h3⟩

/-- C2 counterexample: the source performs no validation at all.  Supplying
the non-permutation `[0, 0]` to either optimizer on a 2×2 matrix produces an
ordinary `(length, tour)` result — the invalid tour is used as-is, no
`InvalidTour` error exists anywhere in the code, and a result IS returned. -/
theorem C2_counterexample :
    do_2opt [[0, 1], [1, 0]] 1 (some [0, 0]) = some (0, [0, 0]) ∧
      do_3opt [[0, 1], [1, 0]] 1 (some [0, 0]) = some (0, [0, 0]) := by
  constructor
  · norm_num [do_2opt, initPath, matSize, loop2, sweep2, tourLength, inner2, distAt,
      List.range_succ]
  · norm_num [do_3opt, initPath, matSize, loop3, sweep3, tourLength, inner3, distAt,
      List.range_succ]

/-- C2 amended: no validation is performed and no error is ever surfaced: a
supplied starting tour — valid or not — is copied and optimized as-is, and
whenever the loop finishes the returned tour is simply a rearrangement of the
supplied sequence (for a tour with out-of-range indices the original code
panics on an index lookup rather than returning an error value). -/
theorem C2_amended (d : Mat) (fuel : ℕ) (s : List ℕ) :
    (∀ L T, do_2opt d fuel (some s) = some (L, T) → T.Perm s) ∧
    (∀ L T, do_3opt d fuel (some s) = some (L, T) → T.Perm s) := by
  constructor
  · intro L T h
    unfold do_2opt at h
    rw [Option.map_eq_some'] at h
    obtain ⟨p, hp, hpt⟩ := h
    rw [Prod.mk.injEq] at hpt
    obtain ⟨_, rfl⟩ := hpt
    exact (loop2_some d _ fuel _ p hp).1
  · intro L T h
    unfold do_3opt at h
    rw [Option.map_eq_some'] at h
    obtain ⟨p, hp, hpt⟩ := h
    rw [Prod.mk.injEq] at hpt
    obtain ⟨_, rfl⟩ := hpt
    exact (loop3_some d _ fuel _ p rfl hp).1

/-- Witness for the amended C2, at the non-permutation input `[0, 0]`. -/
theorem C2_witness :
    do_2opt [[0, 1], [1, 0]] 1 (some [0, 0]) = some (0, [0, 0]) ∧
      do_3opt [[0, 1], [1, 0]] 1 (some [0, 0]) = some (0, [0, 0]) ∧
      ([0, 0] : List ℕ).Perm [0, 0] ∧ ([0, 0] : List ℕ).Perm [0, 0] := by
  have h2 : do_2opt [[0, 1], [1, 0]] 1 (some [0, 0]) = some (0, [0, 0]) := by
    norm_num [do_2opt, initPath, matSize, loop2, sweep2, tourLength, inner2, distAt,
      List.range_succ]
  have h3 : do_3opt [[0, 1], [1, 0]] 1 (some [0, 0]) = some (0, [0, 0]) := by
    norm_num [do_3opt, initPath, matSize, loop3, sweep3, tourLength, inner3, distAt,
      List.range_succ]
  exact ⟨h2, h3, (C2_amended [[0, 1], [1, 0]] 1 [0, 0]).1 0 [0, 0] h2,
    (C2_amended [[0, 1], [1, 0]] 1 [0, 0]).2 0 [0, 0] h3⟩

/-- C8: for both optimizers, re-running the optimizer on its own output tour
(with any positive fuel) returns the very same length and tour: the final
sweep that ended the first run was stable, so the first sweep of the re-run
is stable as well. -/
theorem C8_idempotent (d : Mat) (fuel fuel2 : ℕ) (start : Option (List ℕ))
    (hf : 1 ≤ fuel2) :
    (∀ L T, do_2opt d fuel start = some (L, T) → do_2opt d fuel2 (some T) = some (L, T)) ∧
    (∀ L T, do_3opt d fuel start = some (L, T) → do_3opt d fuel2 (some T) = some (L, T)) := by
  obtain ⟨f2, rfl⟩ : ∃ f2, fuel2 = f2 + 1 := ⟨fuel2 - 1, by omega⟩
  constructor
  · intro L T h
    unfold do_2opt at h ⊢
    rw [Option.map_eq_some'] at h
    obtain ⟨p, hp, hpt⟩ := h
    rw [Prod.mk.injEq] at hpt
    obtain ⟨hL, rfl⟩ := hpt
    have hs := loop2_some d (initPath d start).length fuel _ p hp
    have hlen : p.length = (initPath d start).length := hs.1.length_eq
    have hini : initPath d (some p) = p := rfl
    rw [hini, hlen]
    simp only [loop2, hs.2.2, if_pos]
    rw [Option.map_some', hL]
  · intro L T h
    unfold do_3opt at h ⊢
    rw [Option.map_eq_some'] at h
    obtain ⟨p, hp, hpt⟩ := h
    rw [Prod.mk.injEq] at hpt
    obtain ⟨hL, rfl⟩ := hpt
    have hs := loop3_some d (initPath d start).length fuel _ p rfl hp
    have hlen : p.length = (initPath d start).length := hs.1.length_eq
    have hini : initPath d (some p) = p := rfl
    rw [hini, hlen]
    simp only [loop3, hs.2.2, if_pos]
    rw [Option.map_some', hL]

/-- Witness for C8 on a 2-point instance. -/
theorem C8_witness :
    (1 : ℕ) ≤ 1 ∧ do_2opt [[0, 1], [1, 0]] 1 none = some (2, [0, 1]) ∧
      do_3opt [[0, 1], [1, 0]] 1 none = some (2, [0, 1]) ∧
      do_2opt [[0, 1], [1, 0]] 1 (some [0, 1]) = some (2, [0, 1]) ∧
      do_3opt [[0, 1], [1, 0]] 1 (some [0, 1]) = some (2, [0, 1]) := by
  have h2 : do_2opt [[0, 1], [1, 0]] 1 none = some (2, [0, 1]) := by
    norm_num [do_2opt, initPath, matSize, loop2, sweep2, tourLength, inner2, distAt,
      List.range_succ]
  have h3 : do_3opt [[0, 1], [1, 0]] 1 none = some (2, [0, 1]) := by
    norm_num [do_3opt, initPath, matSize, loop3, sweep3, tourLength, inner3, distAt,
      List.range_succ]
  exact ⟨Nat.le_refl 1, h2, h3,
    (C8_idempotent [[0, 1], [1, 0]] 1 1 none (Nat.le_refl 1)).1 2 [0, 1] h2,
    (C8_idempotent [[0, 1], [1, 0]] 1 1 none (Nat.le_refl 1)).2 2 [0, 1] h3⟩

theorem getD_append_left (u v : List ℕ) (i : ℕ) (h : i < u.length) :
    (u ++ v).getD i 0 = u.getD i 0 := by
  simp [List.getD_eq_getElem?_getD, List.getElem?_append_left h]

theorem getD_append_right (u v : List ℕ) (i : ℕ) (h : u.length ≤ i) :
    (u ++ v).getD i 0 = v.getD (i - u.length) 0 := by
  simp [List.getD_eq_getElem?_getD, List.getElem?_append_right h]

theorem getD_take (p : List ℕ) (i k : ℕ) (h : i < k) :
    (p.take k).getD i 0 = p.getD i 0 := by
  simp [List.getD_eq_getElem?_getD, List.getElem?_take, h]

theorem getD_drop (p : List ℕ) (k i : ℕ) :
    (p.drop k).getD i 0 = p.getD (k + i) 0 := by
  simp [List.getD_eq_getElem?_getD, List.getElem?_drop]

theorem headD_eq_getD (l : List ℕ) : l.headD 0 = l.getD 0 0 := by
  cases l <;> simp

theorem headD_append (u v : List ℕ) (hu : u ≠ []) :
    (u ++ v).headD 0 = u.headD 0 := by
  cases u with
  | nil => exact absurd rfl hu
  | cons x t => simp

theorem getLastD_eq_getD (l : List ℕ) : l.getLastD 0 = l.getD (l.length - 1) 0 := by
  rw [List.getLastD_eq_getLast?, List.getLast?_eq_getElem?, List.getD_eq_getElem?_getD]

theorem headD_eq_head? (l : List ℕ) : l.headD 0 = l.head?.getD 0 := by
  cases l <;> simp

theorem headD_reverse (l : List ℕ) : l.reverse.headD 0 = l.getLastD 0 := by
  rw [headD_eq_head?, List.head?_reverse, List.getLastD_eq_getLast?]

theorem getLastD_reverse (l : List ℕ) : l.reverse.getLastD 0 = l.headD 0 := by
  conv_rhs => rw [← List.reverse_reverse l]
  rw [headD_reverse]

theorem seg_headD (p : List ℕ) (i j : ℕ) (hij : i < j) (_hj : j ≤ p.length) :
    (seg p i j).headD 0 = p.getD i 0 := by
  rw [headD_eq_getD]
  simp [seg, List.getD_eq_getElem?_getD, List.getElem?_drop, List.getElem?_take, hij]

theorem seg_getLastD (p : List ℕ) (i j : ℕ) (hij : i < j) (hj : j ≤ p.length) :
    (seg p i j).getLastD 0 = p.getD (j - 1) 0 := by
  have hl : (seg p i j).length = j - i := seg_length p i j hj
  rw [getLastD_eq_getD, hl]
  simp only [seg]
  rw [getD_drop, getD_take _ _ _ (by omega)]
  congr 1
  omega

theorem take_getLastD (p : List ℕ) (k : ℕ) (hk : k < p.length) :
    (p.take (k + 1)).getLastD 0 = p.getD k 0 := by
  have : p.take (k + 1) = seg p 0 (k + 1) := by simp [seg]
  rw [this, seg_getLastD p 0 (k + 1) (by omega) (by omega)]
  simp

theorem consecSum_range (d : Mat) : ∀ (q : List ℕ),
    ((List.range (q.length - 1)).map
      (fun i => distAt d (q.getD i 0) (q.getD (i + 1) 0))).sum = consecSum d q := by
  intro q
  induction q with
  | nil => simp [consecSum]
  | cons x t ih =>
    cases t with
    | nil => simp [consecSum]
    | cons y r =>
      have hlen : (x :: y :: r).length - 1 = ((y :: r).length - 1) + 1 := by simp
      rw [hlen, List.range_succ_eq_map]
      simp only [List.map_cons, List.map_map, List.sum_cons]
      rw [show consecSum d (x :: y :: r) = distAt d x y + consecSum d (y :: r) from rfl,
        ← ih]
      rfl

theorem foldl_add_eq (g : ℕ → ℚ) : ∀ (l : List ℕ) (c : ℚ),
    l.foldl (fun acc i => acc + g i) c = c + (l.map g).sum := by
  intro l
  induction l with
  | nil => intro c; simp
  | cons x t ih =>
    intro c
    simp only [List.foldl_cons, List.map_cons, List.sum_cons, ih]
    ring

/-- The cyclic tour length is the open-path sum over the tour with its first
element appended at the end. -/
theorem tourLength_eq (d : Mat) (p : List ℕ) :
    tourLength d p = consecSum d (p ++ p.take 1) := by
  cases p with
  | nil => simp [tourLength, consecSum]
  | cons x t =>
    have key : ((List.range (x :: t).length).map (fun i => distAt d ((x :: t).getD i 0)
        ((x :: t).getD ((i + 1) % (x :: t).length) 0))).sum =
        consecSum d ((x :: t) ++ [x]) := by
      rw [← consecSum_range d ((x :: t) ++ [x])]
      have hlen : ((x :: t) ++ [x]).length - 1 = (x :: t).length := by simp
      rw [hlen]
      apply congrArg
      apply List.map_congr_left
      intro i hi
      have hi2 : i < (x :: t).length := List.mem_range.mp hi
      congr 1
      · rw [getD_append_left _ _ _ hi2]
      · by_cases hlast : i + 1 < (x :: t).length
        · rw [Nat.mod_eq_of_lt hlast, getD_append_left _ _ _ hlast]
        · have he : i + 1 = (x :: t).length := by omega
          rw [he, Nat.mod_self, getD_append_right _ _ _ (by omega)]
          simp
    have hfold : tourLength d (x :: t) =
        ((List.range (x :: t).length).map (fun i => distAt d ((x :: t).getD i 0)
          ((x :: t).getD ((i + 1) % (x :: t).length) 0))).sum := by
      unfold tourLength
      rw [foldl_add_eq, zero_add]
    rw [hfold]
    exact key

theorem consecSum_append (d : Mat) : ∀ (u v : List ℕ), u ≠ [] → v ≠ [] →
    consecSum d (u ++ v) =
      consecSum d u + distAt d (u.getLastD 0) (v.headD 0) + consecSum d v := by
  intro u
  induction u with
  | nil => intro v h; exact absurd rfl h
  | cons x t ih =>
    intro v _ hv
    cases t with
    | nil =>
      cases v with
      | nil => exact absurd rfl hv
      | cons y r =>
        show consecSum d (x :: y :: r) = _
        rw [show consecSum d (x :: y :: r) = distAt d x y + consecSum d (y :: r) from rfl]
        show _ = consecSum d [x] + distAt d ([x].getLastD 0) ((y :: r).headD 0) + _
        rw [show consecSum d [x] = 0 from rfl]
        simp [List.getLastD]
    | cons z t2 =>
      have h1 : (x :: z :: t2) ++ v = x :: z :: (t2 ++ v) := by simp
      rw [h1, show consecSum d (x :: z :: (t2 ++ v)) =
        distAt d x z + consecSum d (z :: (t2 ++ v)) from rfl]
      have h2 : (z :: (t2 ++ v)) = (z :: t2) ++ v := by simp
      rw [h2, ih v (by simp) hv,
        show consecSum d (x :: z :: t2) = distAt d x z + consecSum d (z :: t2) from rfl]
      have h3 : (x :: z :: t2).getLastD 0 = (z :: t2).getLastD 0 := by
        rw [List.getLastD_eq_getLast?, List.getLastD_eq_getLast?, List.getLast?_cons_cons]
      rw [h3]
      ring

theorem consecSum_reverse (d : Mat) (hsym : ∀ i j, distAt d i j = distAt d j i) :
    ∀ (v : List ℕ), consecSum d v.reverse = consecSum d v := by
  intro v
  induction v with
  | nil => simp
  | cons x t ih =>
    cases t with
    | nil => simp
    | cons y r =>
      rw [List.reverse_cons, consecSum_append d _ [x] (by simp) (by simp), ih]
      have h1 : (y :: r).reverse.getLastD 0 = y := by rw [getLastD_reverse]; rfl
      rw [h1, show ([x] : List ℕ).headD 0 = x from rfl,
        show consecSum d [x] = 0 from rfl,
        show consecSum d (x :: y :: r) = distAt d x y + consecSum d (y :: r) from rfl,
        hsym y x]
      ring

theorem getLastD_append (u v : List ℕ) (hv : v ≠ []) :
    (u ++ v).getLastD 0 = v.getLastD 0 := by
  cases v with
  | nil => exact absurd rfl hv
  | cons y t =>
    rw [List.getLastD_eq_getLast?, List.getLastD_eq_getLast?, List.getLast?_append,
      List.getLast?_cons]
    rfl

/-- Reversing the slice that covers exactly the middle block of a three-block
decomposition reverses that block in place. -/
theorem reverseSegment_append (u M w : List ℕ) (s e : ℕ) (hs : u.length = s)
    (he : e = s + M.length) :
    reverseSegment (u ++ M ++ w) s e = u ++ M.reverse ++ w := by
  subst hs he
  unfold reverseSegment
  have h1 : (u ++ M ++ w).take u.length = u := by
    rw [List.append_assoc, List.take_left]
  have h2 : (u ++ M ++ w).take (u.length + M.length) = u ++ M := by
    rw [List.append_assoc, List.take_append, List.take_left]
  have h3 : (u ++ M ++ w).drop (u.length + M.length) = w := by
    rw [List.append_assoc, List.drop_append, List.drop_left]
  rw [h1, h2, h3, List.drop_left]

/-- Cyclic tour length of a three-block list, as boundary edges plus internal
open-path sums (the wrap-around block is `w` followed by the head of `u`). -/
theorem tourLength_three (d : Mat) (u M w : List ℕ) (hu : u ≠ []) (hM : M ≠ []) :
    tourLength d (u ++ M ++ w) =
      consecSum d u + distAt d (u.getLastD 0) (M.headD 0) + consecSum d M +
        distAt d (M.getLastD 0) ((w ++ u.take 1).headD 0) + consecSum d (w ++ u.take 1) := by
  rw [tourLength_eq]
  have htake1 : u.take 1 ≠ [] := by
    cases u with
    | nil => exact absurd rfl hu
    | cons x t => simp
  have ht : (u ++ M ++ w).take 1 = u.take 1 := by
    cases u with
    | nil => exact absurd rfl hu
    | cons x t => simp
  rw [ht]
  have hW : w ++ u.take 1 ≠ [] := fun hcon => htake1 (List.append_eq_nil.mp hcon).2
  have hMW : M ++ (w ++ u.take 1) ≠ [] := fun hcon => hM (List.append_eq_nil.mp hcon).1
  calc consecSum d (u ++ M ++ w ++ u.take 1)
      = consecSum d (u ++ (M ++ (w ++ u.take 1))) := by simp [List.append_assoc]
    _ = consecSum d u + distAt d (u.getLastD 0) ((M ++ (w ++ u.take 1)).headD 0) +
        consecSum d (M ++ (w ++ u.take 1)) := consecSum_append d u _ hu hMW
    _ = _ := by
        rw [headD_append M _ hM, consecSum_append d M _ hM hW]
        ring

/-- Cyclic tour length of a four-block list. -/
theorem tourLength_four (d : Mat) (u X Y w : List ℕ) (hu : u ≠ []) (hX : X ≠ [])
    (hY : Y ≠ []) :
    tourLength d (u ++ X ++ Y ++ w) =
      consecSum d u + distAt d (u.getLastD 0) (X.headD 0) + consecSum d X +
        distAt d (X.getLastD 0) (Y.headD 0) + consecSum d Y +
        distAt d (Y.getLastD 0) ((w ++ u.take 1).headD 0) + consecSum d (w ++ u.take 1) := by
  have h1 : u ++ X ++ Y ++ w = u ++ (X ++ Y) ++ w := by simp
  have hXY : X ++ Y ≠ [] := fun hcon => hX (List.append_eq_nil.mp hcon).1
  rw [h1, tourLength_three d u (X ++ Y) w hu hXY, consecSum_append d X Y hX hY,
    headD_append X Y hX, getLastD_append X Y hY]
  ring

/-- The element after the cut point `c`, read cyclically: it is the entry at
`(c+1) % n`, whether or not `c` is the last position. -/
theorem wrapHead (p : List ℕ) (c : ℕ) (hc : c < p.length) :
    ((p.drop (c + 1) ++ p.take 1).headD 0) = p.getD ((c + 1) % p.length) 0 := by
  by_cases h : c + 1 < p.length
  · have hne : p.drop (c + 1) ≠ [] := by
      intro hcon
      have := congrArg List.length hcon
      simp at this
      omega
    rw [headD_append _ _ hne, headD_eq_getD, getD_drop, Nat.mod_eq_of_lt h]
  · have he : c + 1 = p.length := by omega
    have hdrop : p.drop (c + 1) = [] := by
      rw [he, List.drop_length]
    rw [hdrop, List.nil_append, he, Nat.mod_self]
    cases p with
    | nil => simp at hc
    | cons x t => simp

/-- Length change of a slice reversal `path[i+1..j+1].reverse()`: exactly the
2-opt `delta` expression of the source (symmetry of the matrix is needed for
the edges interior to the reversed slice). -/
theorem tourLength_revSeg (d : Mat) (hsym : ∀ i j, distAt d i j = distAt d j i)
    (p : List ℕ) (i j : ℕ) (hij : i < j) (hj : j < p.length) :
    tourLength d (reverseSegment p (i + 1) (j + 1)) =
      tourLength d p +
        (distAt d (p.getD i 0) (p.getD j 0) +
          distAt d (p.getD (i + 1) 0) (p.getD ((j + 1) % p.length) 0) -
          distAt d (p.getD i 0) (p.getD (i + 1) 0) -
          distAt d (p.getD j 0) (p.getD ((j + 1) % p.length) 0)) := by
  have hsplit : p = p.take (i + 1) ++ seg p (i + 1) (j + 1) ++ p.drop (j + 1) :=
    (seg_split p (i + 1) (j + 1) (by omega)).symm
  have hulen : (p.take (i + 1)).length = i + 1 := by rw [List.length_take]; omega
  have hMlen0 := seg_length p (i + 1) (j + 1) (by omega)
  have hune : p.take (i + 1) ≠ [] := by
    intro hcon
    rw [hcon] at hulen
    simp at hulen
  have hMne : seg p (i + 1) (j + 1) ≠ [] := by
    intro hcon
    rw [hcon] at hMlen0
    simp at hMlen0
    omega
  have hMrne : (seg p (i + 1) (j + 1)).reverse ≠ [] := by
    simp only [ne_eq, List.reverse_eq_nil_iff]
    exact hMne
  have hrev : reverseSegment p (i + 1) (j + 1) =
      p.take (i + 1) ++ (seg p (i + 1) (j + 1)).reverse ++ p.drop (j + 1) := by
    conv_lhs => rw [hsplit]
    exact reverseSegment_append _ _ _ (i + 1) (j + 1) hulen (by rw [hMlen0]; omega)
  have hold : tourLength d p =
      consecSum d (p.take (i + 1)) +
        distAt d ((p.take (i + 1)).getLastD 0) ((seg p (i + 1) (j + 1)).headD 0) +
        consecSum d (seg p (i + 1) (j + 1)) +
        distAt d ((seg p (i + 1) (j + 1)).getLastD 0)
          ((p.drop (j + 1) ++ (p.take (i + 1)).take 1).headD 0) +
        consecSum d (p.drop (j + 1) ++ (p.take (i + 1)).take 1) := by
    conv_lhs => rw [hsplit]
    exact tourLength_three d _ _ _ hune hMne
  have hnew : tourLength d (reverseSegment p (i + 1) (j + 1)) =
      consecSum d (p.take (i + 1)) +
        distAt d ((p.take (i + 1)).getLastD 0) ((seg p (i + 1) (j + 1)).reverse.headD 0) +
        consecSum d (seg p (i + 1) (j + 1)).reverse +
        distAt d ((seg p (i + 1) (j + 1)).reverse.getLastD 0)
          ((p.drop (j + 1) ++ (p.take (i + 1)).take 1).headD 0) +
        consecSum d (p.drop (j + 1) ++ (p.take (i + 1)).take 1) := by
    rw [hrev]
    exact tourLength_three d _ _ _ hune hMrne
  have h1 : (p.take (i + 1)).getLastD 0 = p.getD i 0 := take_getLastD p i (by omega)
  have h2 : (seg p (i + 1) (j + 1)).headD 0 = p.getD (i + 1) 0 :=
    seg_headD p (i + 1) (j + 1) (by omega) (by omega)
  have h3 : (seg p (i + 1) (j + 1)).getLastD 0 = p.getD j 0 := by
    rw [seg_getLastD p (i + 1) (j + 1) (by omega) (by omega)]
    simp
  have h4 : (seg p (i + 1) (j + 1)).reverse.headD 0 = p.getD j 0 := by
    rw [headD_reverse, h3]
  have h5 : (seg p (i + 1) (j + 1)).reverse.getLastD 0 = p.getD (i + 1) 0 := by
    rw [getLastD_reverse, h2]
  have h6 : consecSum d (seg p (i + 1) (j + 1)).reverse = consecSum d (seg p (i + 1) (j + 1)) :=
    consecSum_reverse d hsym _
  have h7 : (p.take (i + 1)).take 1 = p.take 1 := by
    rw [List.take_take]
    congr 1
    omega
  have h8 : (p.drop (j + 1) ++ (p.take (i + 1)).take 1).headD 0 =
      p.getD ((j + 1) % p.length) 0 := by
    rw [h7]
    exact wrapHead p j hj
  rw [hnew, hold, h1, h2, h3, h4, h5, h6, h8]
  ring

/-- Length change of an in-range `exchange`: exactly `swaps[6] - current` of
the source's 3-opt body (no symmetry needed). -/
theorem tourLength_exchange (d : Mat) (p : List ℕ) (a b c : ℕ)
    (hab : a < b) (hbc : b < c) (hc : c < p.length) :
    tourLength d (exchange p a b c) =
      tourLength d p +
        (distAt d (p.getD a 0) (p.getD (b + 1) 0) +
          distAt d (p.getD c 0) (p.getD (a + 1) 0) +
          distAt d (p.getD b 0) (p.getD ((c + 1) % p.length) 0) -
          (distAt d (p.getD a 0) (p.getD (a + 1) 0) +
            distAt d (p.getD b 0) (p.getD (b + 1) 0) +
            distAt d (p.getD c 0) (p.getD ((c + 1) % p.length) 0))) := by
  have hsplit := tour_decomp p a b c (by omega) (by omega) hc
  have hulen : (p.take (a + 1)).length = a + 1 := by rw [List.length_take]; omega
  have hBlen := seg_length p (a + 1) (b + 1) (show b + 1 ≤ p.length by omega)
  have hClen := seg_length p (b + 1) (c + 1) (show c + 1 ≤ p.length by omega)
  have hune : p.take (a + 1) ≠ [] := by
    intro hcon
    rw [hcon] at hulen
    simp at hulen
  have hBne : seg p (a + 1) (b + 1) ≠ [] := by
    intro hcon
    rw [hcon] at hBlen
    simp at hBlen
    omega
  have hCne : seg p (b + 1) (c + 1) ≠ [] := by
    intro hcon
    rw [hcon] at hClen
    simp at hClen
    omega
  have hold : tourLength d p =
      consecSum d (p.take (a + 1)) +
        distAt d ((p.take (a + 1)).getLastD 0) ((seg p (a + 1) (b + 1)).headD 0) +
        consecSum d (seg p (a + 1) (b + 1)) +
        distAt d ((seg p (a + 1) (b + 1)).getLastD 0) ((seg p (b + 1) (c + 1)).headD 0) +
        consecSum d (seg p (b + 1) (c + 1)) +
        distAt d ((seg p (b + 1) (c + 1)).getLastD 0)
          ((p.drop (c + 1) ++ (p.take (a + 1)).take 1).headD 0) +
        consecSum d (p.drop (c + 1) ++ (p.take (a + 1)).take 1) := by
    conv_lhs => rw [hsplit]
    exact tourLength_four d _ _ _ _ hune hBne hCne
  have hnew : tourLength d (exchange p a b c) =
      consecSum d (p.take (a + 1)) +
        distAt d ((p.take (a + 1)).getLastD 0) ((seg p (b + 1) (c + 1)).headD 0) +
        consecSum d (seg p (b + 1) (c + 1)) +
        distAt d ((seg p (b + 1) (c + 1)).getLastD 0) ((seg p (a + 1) (b + 1)).headD 0) +
        consecSum d (seg p (a + 1) (b + 1)) +
        distAt d ((seg p (a + 1) (b + 1)).getLastD 0)
          ((p.drop (c + 1) ++ (p.take (a + 1)).take 1).headD 0) +
        consecSum d (p.drop (c + 1) ++ (p.take (a + 1)).take 1) := by
    rw [exchange_decomp p a b c (by omega) (by omega) hc]
    exact tourLength_four d _ _ _ _ hune hCne hBne
  have h1 : (p.take (a + 1)).getLastD 0 = p.getD a 0 := take_getLastD p a (by omega)
  have h2 : (seg p (a + 1) (b + 1)).headD 0 = p.getD (a + 1) 0 :=
    seg_headD p (a + 1) (b + 1) (by omega) (by omega)
  have h3 : (seg p (a + 1) (b + 1)).getLastD 0 = p.getD b 0 := by
    rw [seg_getLastD p (a + 1) (b + 1) (by omega) (by omega)]
    simp
  have h4 : (seg p (b + 1) (c + 1)).headD 0 = p.getD (b + 1) 0 :=
    seg_headD p (b + 1) (c + 1) (by omega) (by omega)
  have h5 : (seg p (b + 1) (c + 1)).getLastD 0 = p.getD c 0 := by
    rw [seg_getLastD p (b + 1) (c + 1) (by omega) (by omega)]
    simp
  have h7 : (p.take (a + 1)).take 1 = p.take 1 := by
    rw [List.take_take]
    congr 1
    omega
  have h8 : (p.drop (c + 1) ++ (p.take (a + 1)).take 1).headD 0 =
      p.getD ((c + 1) % p.length) 0 := by
    rw [h7]
    exact wrapHead p c hc
  rw [hnew, hold, h1, h2, h3, h4, h5, h8]
  ring

/-- Length change of the transform the 3-opt body applies for case `m`:
exactly `swaps[m] - current`. -/
theorem tourLength_apply3 (d : Mat) (hsym : ∀ i j, distAt d i j = distAt d j i)
    (p : List ℕ) (a b c m : ℕ) (hab : a < b) (hbc : b < c) (hc : c < p.length)
    (hm : m < 7) :
    tourLength d (apply3 p a b c m) =
      tourLength d p +
        ((swaps3 d p p.length a b c).getD m 0 - current3 d p p.length a b c) := by
  have hsplit := tour_decomp p a b c (by omega) (by omega) hc
  have hulen : (p.take (a + 1)).length = a + 1 := by rw [List.length_take]; omega
  have hBlen := seg_length p (a + 1) (b + 1) (show b + 1 ≤ p.length by omega)
  have hClen := seg_length p (b + 1) (c + 1) (show c + 1 ≤ p.length by omega)
  have hune : p.take (a + 1) ≠ [] := by
    intro hcon
    rw [hcon] at hulen
    simp at hulen
  have hBne : seg p (a + 1) (b + 1) ≠ [] := by
    intro hcon
    rw [hcon] at hBlen
    simp at hBlen
    omega
  have hCne : seg p (b + 1) (c + 1) ≠ [] := by
    intro hcon
    rw [hcon] at hClen
    simp at hClen
    omega
  have hBrne : (seg p (a + 1) (b + 1)).reverse ≠ [] := by
    simp only [ne_eq, List.reverse_eq_nil_iff]
    exact hBne
  have hCrne : (seg p (b + 1) (c + 1)).reverse ≠ [] := by
    simp only [ne_eq, List.reverse_eq_nil_iff]
    exact hCne
  have hUl : (p.take (a + 1)).getLastD 0 = p.getD a 0 := take_getLastD p a (by omega)
  have hBh : (seg p (a + 1) (b + 1)).headD 0 = p.getD (a + 1) 0 :=
    seg_headD p (a + 1) (b + 1) (by omega) (by omega)
  have hBl : (seg p (a + 1) (b + 1)).getLastD 0 = p.getD b 0 := by
    rw [seg_getLastD p (a + 1) (b + 1) (by omega) (by omega)]
    simp
  have hCh : (seg p (b + 1) (c + 1)).headD 0 = p.getD (b + 1) 0 :=
    seg_headD p (b + 1) (c + 1) (by omega) (by omega)
  have hCl : (seg p (b + 1) (c + 1)).getLastD 0 = p.getD c 0 := by
    rw [seg_getLastD p (b + 1) (c + 1) (by omega) (by omega)]
    simp
  have hBrh : (seg p (a + 1) (b + 1)).reverse.headD 0 = p.getD b 0 := by
    rw [headD_reverse, hBl]
  have hBrl : (seg p (a + 1) (b + 1)).reverse.getLastD 0 = p.getD (a + 1) 0 := by
    rw [getLastD_reverse, hBh]
  have hCrh : (seg p (b + 1) (c + 1)).reverse.headD 0 = p.getD c 0 := by
    rw [headD_reverse, hCl]
  have hCrl : (seg p (b + 1) (c + 1)).reverse.getLastD 0 = p.getD (b + 1) 0 := by
    rw [getLastD_reverse, hCh]
  have hBs : consecSum d (seg p (a + 1) (b + 1)).reverse =
      consecSum d (seg p (a + 1) (b + 1)) := consecSum_reverse d hsym _
  have hCs : consecSum d (seg p (b + 1) (c + 1)).reverse =
      consecSum d (seg p (b + 1) (c + 1)) := consecSum_reverse d hsym _
  have h7 : (p.take (a + 1)).take 1 = p.take 1 := by
    rw [List.take_take]
    congr 1
    omega
  have h8 : (p.drop (c + 1) ++ (p.take (a + 1)).take 1).headD 0 =
      p.getD ((c + 1) % p.length) 0 := by
    rw [h7]
    exact wrapHead p c hc
  have hold : tourLength d p =
      consecSum d (p.take (a + 1)) +
        distAt d (p.getD a 0) (p.getD (a + 1) 0) +
        consecSum d (seg p (a + 1) (b + 1)) +
        distAt d (p.getD b 0) (p.getD (b + 1) 0) +
        consecSum d (seg p (b + 1) (c + 1)) +
        distAt d (p.getD c 0) (p.getD ((c + 1) % p.length) 0) +
        consecSum d (p.drop (c + 1) ++ (p.take (a + 1)).take 1) := by
    conv_lhs => rw [hsplit]
    rw [tourLength_four d _ _ _ _ hune hBne hCne, hUl, hBh, hBl, hCh, hCl, h8]
  have hcur : current3 d p p.length a b c =
      distAt d (p.getD a 0) (p.getD (a + 1) 0) + distAt d (p.getD b 0) (p.getD (b + 1) 0) +
        distAt d (p.getD c 0) (p.getD ((c + 1) % p.length) 0) := rfl
  -- structural shapes of the three composite transforms
  have hrevB : reverseSegment p (a + 1) (b + 1) =
      p.take (a + 1) ++ (seg p (a + 1) (b + 1)).reverse ++
        (seg p (b + 1) (c + 1) ++ p.drop (c + 1)) := by
    have hsplit2 : p = p.take (a + 1) ++ seg p (a + 1) (b + 1) ++
        (seg p (b + 1) (c + 1) ++ p.drop (c + 1)) := by
      conv_lhs => rw [hsplit]
      simp [List.append_assoc]
    conv_lhs => rw [hsplit2]
    exact reverseSegment_append _ _ _ (a + 1) (b + 1) hulen (by rw [hBlen]; omega)
  have hrevC : reverseSegment p (b + 1) (c + 1) =
      p.take (a + 1) ++ seg p (a + 1) (b + 1) ++ (seg p (b + 1) (c + 1)).reverse ++
        p.drop (c + 1) := by
    conv_lhs => rw [hsplit]
    have := reverseSegment_append (p.take (a + 1) ++ seg p (a + 1) (b + 1))
      (seg p (b + 1) (c + 1)) (p.drop (c + 1)) (b + 1) (c + 1)
      (by rw [List.length_append, hulen, hBlen]; omega) (by rw [hClen]; omega)
    simpa [List.append_assoc] using this
  interval_cases m
  · -- case 0: reverse (b, c]
    rw [show apply3 p a b c 0 = reverseSegment p (b + 1) (c + 1) from rfl,
      tourLength_revSeg d hsym p b c hbc hc,
      show (swaps3 d p p.length a b c).getD 0 0 =
        distAt d (p.getD a 0) (p.getD (a + 1) 0) + distAt d (p.getD b 0) (p.getD c 0) +
          distAt d (p.getD (b + 1) 0) (p.getD ((c + 1) % p.length) 0) from rfl, hcur]
    ring
  · -- case 1: reverse (a, c]
    rw [show apply3 p a b c 1 = reverseSegment p (a + 1) (c + 1) from rfl,
      tourLength_revSeg d hsym p a c (by omega) hc,
      show (swaps3 d p p.length a b c).getD 1 0 =
        distAt d (p.getD a 0) (p.getD c 0) + distAt d (p.getD (b + 1) 0) (p.getD b 0) +
          distAt d (p.getD (a + 1) 0) (p.getD ((c + 1) % p.length) 0) from rfl, hcur,
      hsym (p.getD (b + 1) 0) (p.getD b 0)]
    ring
  · -- case 2: reverse (a, b]
    rw [show apply3 p a b c 2 = reverseSegment p (a + 1) (b + 1) from rfl,
      tourLength_revSeg d hsym p a b hab (by omega),
      Nat.mod_eq_of_lt (show b + 1 < p.length by omega),
      show (swaps3 d p p.length a b c).getD 2 0 =
        distAt d (p.getD a 0) (p.getD b 0) + distAt d (p.getD (a + 1) 0) (p.getD (b + 1) 0) +
          distAt d (p.getD c 0) (p.getD ((c + 1) % p.length) 0) from rfl, hcur]
    ring
  · -- case 3: reverse (a, b], then exchange
    rw [show apply3 p a b c 3 = exchange (reverseSegment p (a + 1) (b + 1)) a b c from rfl,
      hrevB]
    have hshape : p.take (a + 1) ++ (seg p (a + 1) (b + 1)).reverse ++
        (seg p (b + 1) (c + 1) ++ p.drop (c + 1)) =
        p.take (a + 1) ++ (seg p (a + 1) (b + 1)).reverse ++ seg p (b + 1) (c + 1) ++
          p.drop (c + 1) := by simp [List.append_assoc]
    rw [hshape,
      exchange_blocks ((seg p (a + 1) (b + 1)).reverse) (seg p (b + 1) (c + 1))
        (p.take (a + 1)) (p.drop (c + 1)) a b c hulen
        (by rw [List.length_reverse, hBlen]; omega) (by rw [hClen]; omega),
      tourLength_four d _ _ _ _ hune hCne hBrne, hUl, hCh, hCl, hBrh, hBrl, hBs, h8, hold,
      show (swaps3 d p p.length a b c).getD 3 0 =
        distAt d (p.getD a 0) (p.getD (b + 1) 0) + distAt d (p.getD c 0) (p.getD b 0) +
          distAt d (p.getD (a + 1) 0) (p.getD ((c + 1) % p.length) 0) from rfl, hcur]
    ring
  · -- case 4: reverse (a, b], then reverse (b, c]
    rw [show apply3 p a b c 4 =
        reverseSegment (reverseSegment p (a + 1) (b + 1)) (b + 1) (c + 1) from rfl,
      hrevB]
    have hstep := reverseSegment_append
      (p.take (a + 1) ++ (seg p (a + 1) (b + 1)).reverse) (seg p (b + 1) (c + 1))
      (p.drop (c + 1)) (b + 1) (c + 1)
      (by rw [List.length_append, hulen, List.length_reverse, hBlen]; omega)
      (by rw [hClen]; omega)
    have hshape : p.take (a + 1) ++ (seg p (a + 1) (b + 1)).reverse ++
        (seg p (b + 1) (c + 1) ++ p.drop (c + 1)) =
        p.take (a + 1) ++ (seg p (a + 1) (b + 1)).reverse ++ seg p (b + 1) (c + 1) ++
          p.drop (c + 1) := by simp [List.append_assoc]
    rw [hshape, hstep,
      tourLength_four d _ _ _ _ hune hBrne hCrne, hUl, hBrh, hBrl, hCrh, hCrl, hBs, hCs,
      h8, hold,
      show (swaps3 d p p.length a b c).getD 4 0 =
        distAt d (p.getD a 0) (p.getD b 0) + distAt d (p.getD (a + 1) 0) (p.getD c 0) +
          distAt d (p.getD (b + 1) 0) (p.getD ((c + 1) % p.length) 0) from rfl, hcur]
    ring
  · -- case 5: reverse (b, c], then exchange
    rw [show apply3 p a b c 5 = exchange (reverseSegment p (b + 1) (c + 1)) a b c from rfl,
      hrevC,
      exchange_blocks (seg p (a + 1) (b + 1)) ((seg p (b + 1) (c + 1)).reverse)
        (p.take (a + 1)) (p.drop (c + 1)) a b c hulen (by rw [hBlen]; omega)
        (by rw [List.length_reverse, hClen]; omega),
      tourLength_four d _ _ _ _ hune hCrne hBne, hUl, hCrh, hCrl, hBh, hBl, hCs, h8, hold,
      show (swaps3 d p p.length a b c).getD 5 0 =
        distAt d (p.getD a 0) (p.getD c 0) + distAt d (p.getD (b + 1) 0) (p.getD (a + 1) 0) +
          distAt d (p.getD b 0) (p.getD ((c + 1) % p.length) 0) from rfl, hcur]
    ring
  · -- case 6: exchange only
    rw [show apply3 p a b c 6 = exchange p a b c from rfl,
      tourLength_exchange d p a b c hab hbc hc,
      show (swaps3 d p p.length a b c).getD 6 0 =
        distAt d (p.getD a 0) (p.getD (b + 1) 0) + distAt d (p.getD c 0) (p.getD (a + 1) 0) +
          distAt d (p.getD b 0) (p.getD ((c + 1) % p.length) 0) from rfl, hcur]

theorem epsTol_pos : (0 : ℚ) < epsTol := by norm_num [epsTol]

/-- Index selected by the source's min loop over the seven candidates. -/
theorem minIdx_lt (l : List ℚ) (h : l.length = 7) : minIdx l < 7 := by
  unfold minIdx
  rw [h]
  refine foldl_inv (fun m => m < 7) _ ?_ 0 (by omega)
  intro m i hi _
  have hi2 := List.mem_range'_1.mp hi
  split
  · omega
  · omega

/-- Length invariant of one 2-opt sweep: the tour length never increases, and
it strictly decreases whenever the sweep reports a change. -/
theorem sweep2_length (d : Mat) (hsym : ∀ i j, distAt d i j = distAt d j i) (n : ℕ)
    (path₀ : List ℕ) (hn : path₀.length = n) :
    tourLength d (sweep2 d n path₀).1 ≤ tourLength d path₀ ∧
      ((sweep2 d n path₀).2 = false →
        tourLength d (sweep2 d n path₀).1 < tourLength d path₀) := by
  have main : (sweep2 d n path₀).1.length = n ∧
      tourLength d (sweep2 d n path₀).1 ≤ tourLength d path₀ ∧
      ((sweep2 d n path₀).2 = false →
        tourLength d (sweep2 d n path₀).1 < tourLength d path₀) := by
    unfold sweep2
    refine foldl_inv
      (fun st : List ℕ × Bool => st.1.length = n ∧ tourLength d st.1 ≤ tourLength d path₀ ∧
        (st.2 = false → tourLength d st.1 < tourLength d path₀))
      (List.range n) ?_ (path₀, true) ⟨hn, le_refl _, by simp⟩
    intro st a _ hI
    refine foldl_inv
      (fun st : List ℕ × Bool => st.1.length = n ∧ tourLength d st.1 ≤ tourLength d path₀ ∧
        (st.2 = false → tourLength d st.1 < tourLength d path₀))
      _ ?_ st hI
    intro st2 b hb hI2
    have hb2 := List.mem_range'_1.mp hb
    unfold inner2
    split
    next hcond =>
      have hΔ := tourLength_revSeg d hsym st2.1 a b (by omega)
        (by rw [hI2.1]; omega)
      rw [hI2.1] at hΔ
      refine ⟨?_, ?_, ?_⟩
      · rw [(reverseSegment_perm st2.1 (a + 1) (b + 1) (by omega)).length_eq]
        exact hI2.1
      · have heps := epsTol_pos
        have := hI2.2.1
        linarith [hcond]
      · intro _
        have heps := epsTol_pos
        have := hI2.2.1
        linarith [hcond]
    next => exact hI2
  exact ⟨main.2.1, main.2.2⟩

/-- Length invariant of one 3-opt sweep. -/
theorem sweep3_length (d : Mat) (hsym : ∀ i j, distAt d i j = distAt d j i) (n : ℕ)
    (path₀ : List ℕ) (hn : path₀.length = n) :
    tourLength d (sweep3 d n path₀).1 ≤ tourLength d path₀ ∧
      ((sweep3 d n path₀).2 = false →
        tourLength d (sweep3 d n path₀).1 < tourLength d path₀) := by
  have main : (sweep3 d n path₀).1.length = n ∧
      tourLength d (sweep3 d n path₀).1 ≤ tourLength d path₀ ∧
      ((sweep3 d n path₀).2 = false →
        tourLength d (sweep3 d n path₀).1 < tourLength d path₀) := by
    unfold sweep3
    refine foldl_inv
      (fun st : List ℕ × Bool => st.1.length = n ∧ tourLength d st.1 ≤ tourLength d path₀ ∧
        (st.2 = false → tourLength d st.1 < tourLength d path₀))
      (List.range n) ?_ (path₀, true) ⟨hn, le_refl _, by simp⟩
    intro st a ha hI
    refine foldl_inv
      (fun st : List ℕ × Bool => st.1.length = n ∧ tourLength d st.1 ≤ tourLength d path₀ ∧
        (st.2 = false → tourLength d st.1 < tourLength d path₀))
      _ ?_ st hI
    intro st2 b hb hI2
    refine foldl_inv
      (fun st : List ℕ × Bool => st.1.length = n ∧ tourLength d st.1 ≤ tourLength d path₀ ∧
        (st.2 = false → tourLength d st.1 < tourLength d path₀))
      _ ?_ st2 hI2
    intro st3 c hc hI3
    have ha2 := List.mem_range.mp ha
    have hb2 := List.mem_range'_1.mp hb
    have hc2 := List.mem_range'_1.mp hc
    unfold inner3
    split
    next hcond =>
      have hm : minIdx (swaps3 d st3.1 n a b c) < 7 := minIdx_lt _ rfl
      have hΔ := tourLength_apply3 d hsym st3.1 a b c (minIdx (swaps3 d st3.1 n a b c))
        (by omega) (by omega) (by rw [hI3.1]; omega) hm
      rw [hI3.1] at hΔ
      refine ⟨?_, ?_, ?_⟩
      · rw [(apply3_perm st3.1 a b c _ (by omega) (by omega)
          (by rw [hI3.1]; omega)).length_eq]
        exact hI3.1
      · have heps := epsTol_pos
        have := hI3.2.1
        linarith [hcond]
      · intro _
        have heps := epsTol_pos
        have := hI3.2.1
        linarith [hcond]
    next => exact hI3
  exact ⟨main.2.1, main.2.2⟩

/-- Whole-loop non-increase for 2-opt. -/
theorem loop2_length (d : Mat) (hsym : ∀ i j, distAt d i j = distAt d j i) (n : ℕ) :
    ∀ (f : ℕ) (p q : List ℕ), p.length = n → loop2 d n f p = some q →
      tourLength d q ≤ tourLength d p := by
  intro f
  induction f with
  | zero => intro p q _ h; simp [loop2] at h
  | succ f ih =>
    intro p q hp h
    simp only [loop2] at h
    by_cases hst : (sweep2 d n p).2
    · rw [if_pos hst] at h
      rw [← Option.some.inj h]
      exact (sweep2_length d hsym n p hp).1
    · rw [if_neg hst] at h
      have h1 := ih (sweep2 d n p).1 q
        (by rw [(sweep2_struct d n p).1.length_eq, hp]) h
      have h2 := (sweep2_length d hsym n p hp).1
      linarith

/-- Whole-loop non-increase for 3-opt. -/
theorem loop3_length (d : Mat) (hsym : ∀ i j, distAt d i j = distAt d j i) (n : ℕ) :
    ∀ (f : ℕ) (p q : List ℕ), p.length = n → loop3 d n f p = some q →
      tourLength d q ≤ tourLength d p := by
  intro f
  induction f with
  | zero => intro p q _ h; simp [loop3] at h
  | succ f ih =>
    intro p q hp h
    simp only [loop3] at h
    by_cases hst : (sweep3 d n p).2
    · rw [if_pos hst] at h
      rw [← Option.some.inj h]
      exact (sweep3_length d hsym n p hp).1
    · rw [if_neg hst] at h
      have h1 := ih (sweep3 d n p).1 q
        (by rw [(sweep3_struct d n p hp).1.length_eq, hp]) h
      have h2 := (sweep3_length d hsym n p hp).1
      linarith

/-- C7: on a symmetric distance matrix, the length returned by either
optimizer is at most the cyclic length of the starting tour (the default
identity tour or the supplied one). -/
theorem C7_nonincrease (d : Mat) (hsym : ∀ i j, distAt d i j = distAt d j i)
    (fuel : ℕ) (start : Option (List ℕ)) :
    (∀ L T, do_2opt d fuel start = some (L, T) → L ≤ tourLength d (initPath d start)) ∧
    (∀ L T, do_3opt d fuel start = some (L, T) → L ≤ tourLength d (initPath d start)) := by
  constructor
  · intro L T h
    unfold do_2opt at h
    rw [Option.map_eq_some'] at h
    obtain ⟨p, hp, hpt⟩ := h
    rw [Prod.mk.injEq] at hpt
    obtain ⟨hL, rfl⟩ := hpt
    rw [← hL]
    exact loop2_length d hsym _ fuel _ p rfl hp
  · intro L T h
    unfold do_3opt at h
    rw [Option.map_eq_some'] at h
    obtain ⟨p, hp, hpt⟩ := h
    rw [Prod.mk.injEq] at hpt
    obtain ⟨hL, rfl⟩ := hpt
    rw [← hL]
    exact loop3_length d hsym _ fuel _ p rfl hp

/-- Witness for C7 on a concrete symmetric 2×2 matrix. -/
theorem C7_witness :
    (∀ i j, distAt [[0, 1], [1, 0]] i j = distAt [[0, 1], [1, 0]] j i) ∧
      do_2opt [[0, 1], [1, 0]] 1 none = some (2, [0, 1]) ∧
      do_3opt [[0, 1], [1, 0]] 1 none = some (2, [0, 1]) ∧
      (2 : ℚ) ≤ tourLength [[0, 1], [1, 0]] (initPath [[0, 1], [1, 0]] none) ∧
      (2 : ℚ) ≤ tourLength [[0, 1], [1, 0]] (initPath [[0, 1], [1, 0]] none) := by
  have hsym : ∀ i j, distAt [[0, 1], [1, 0]] i j = distAt [[0, 1], [1, 0]] j i := by
    intro i j
    rcases i with _ | _ | i <;> rcases j with _ | _ | j <;> rfl
  have h2 : do_2opt [[0, 1], [1, 0]] 1 none = some (2, [0, 1]) := by
    norm_num [do_2opt, initPath, matSize, loop2, sweep2, tourLength, inner2, distAt,
      List.range_succ]
  have h3 : do_3opt [[0, 1], [1, 0]] 1 none = some (2, [0, 1]) := by
    norm_num [do_3opt, initPath, matSize, loop3, sweep3, tourLength, inner3, distAt,
      List.range_succ]
  exact ⟨hsym, h2, h3,
    (C7_nonincrease [[0, 1], [1, 0]] hsym 1 none).1 2 [0, 1] h2,
    (C7_nonincrease [[0, 1], [1, 0]] hsym 1 none).2 2 [0, 1] h3⟩

/-- Strict decrease of the termination measure: a permutation tour of
strictly smaller length has strictly smaller rank. -/
theorem lenRank_lt (d : Mat) (n : ℕ) (p q : List ℕ) (hq : q.Perm (List.range n))
    (hlt : tourLength d q < tourLength d p) : lenRank d n q < lenRank d n p := by
  unfold lenRank
  apply Finset.card_lt_card
  have hsub : (((List.range n).permutations.map (tourLength d)).toFinset.filter
      (fun x => x < tourLength d q)) ⊆
      (((List.range n).permutations.map (tourLength d)).toFinset.filter
      (fun x => x < tourLength d p)) := by
    intro x hx
    rw [Finset.mem_filter] at hx ⊢
    exact ⟨hx.1, lt_trans hx.2 hlt⟩
  rw [Finset.ssubset_iff_of_subset hsub]
  refine ⟨tourLength d q, ?_, ?_⟩
  · rw [Finset.mem_filter]
    refine ⟨?_, hlt⟩
    rw [List.mem_toFinset, List.mem_map]
    exact ⟨q, List.mem_permutations.mpr hq, rfl⟩
  · rw [Finset.mem_filter]
    intro hcon
    exact absurd hcon.2 (lt_irrefl _)

/-- With fuel exceeding the rank of the starting permutation, the 2-opt loop
reaches a stable sweep. -/
theorem loop2_term (d : Mat) (hsym : ∀ i j, distAt d i j = distAt d j i) (n : ℕ) :
    ∀ (f : ℕ) (p : List ℕ), p.Perm (List.range n) → lenRank d n p < f →
      (loop2 d n f p).isSome = true := by
  intro f
  induction f with
  | zero => intro p _ h; omega
  | succ f ih =>
    intro p hp h
    simp only [loop2]
    by_cases hst : (sweep2 d n p).2
    · rw [if_pos hst]
      rfl
    · rw [if_neg hst]
      have hplen : p.length = n := by rw [hp.length_eq, List.length_range]
      have hperm2 : (sweep2 d n p).1.Perm (List.range n) := (sweep2_struct d n p).1.trans hp
      have hst2 : (sweep2 d n p).2 = false := by
        revert hst
        cases (sweep2 d n p).2 <;> simp
      have hdec : tourLength d (sweep2 d n p).1 < tourLength d p :=
        (sweep2_length d hsym n p hplen).2 hst2
      have hrank := lenRank_lt d n p (sweep2 d n p).1 hperm2 hdec
      exact ih _ hperm2 (by omega)

/-- With fuel exceeding the rank of the starting permutation, the 3-opt loop
reaches a stable sweep. -/
theorem loop3_term (d : Mat) (hsym : ∀ i j, distAt d i j = distAt d j i) (n : ℕ) :
    ∀ (f : ℕ) (p : List ℕ), p.Perm (List.range n) → lenRank d n p < f →
      (loop3 d n f p).isSome = true := by
  intro f
  induction f with
  | zero => intro p _ h; omega
  | succ f ih =>
    intro p hp h
    simp only [loop3]
    by_cases hst : (sweep3 d n p).2
    · rw [if_pos hst]
      rfl
    · rw [if_neg hst]
      have hplen : p.length = n := by rw [hp.length_eq, List.length_range]
      have hperm2 : (sweep3 d n p).1.Perm (List.range n) :=
        (sweep3_struct d n p hplen).1.trans hp
      have hst2 : (sweep3 d n p).2 = false := by
        revert hst
        cases (sweep3 d n p).2 <;> simp
      have hdec : tourLength d (sweep3 d n p).1 < tourLength d p :=
        (sweep3_length d hsym n p hplen).2 hst2
      have hrank := lenRank_lt d n p (sweep3 d n p).1 hperm2 hdec
      exact ih _ hperm2 (by omega)

/-- C9: on a symmetric distance matrix, started from the default identity
tour or any supplied permutation, both while-not-stable loops terminate —
there is a finite fuel bound past which both optimizers return a result.
Each accepted move strictly decreases the tour length by more than
ε = 1e-10, permutation tours realize only finitely many lengths, so only
finitely many sweeps can produce a change. -/
theorem C9_termination (d : Mat) (hsym : ∀ i j, distAt d i j = distAt d j i)
    (start : Option (List ℕ))
    (hstart : ∀ s, start = some s → s.Perm (List.range (matSize d))) :
    ∃ F, ∀ f, F ≤ f →
      (do_2opt d f start).isSome = true ∧ (do_3opt d f start).isSome = true := by
  have hinit : (initPath d start).Perm (List.range (matSize d)) := by
    cases start with
    | none => exact List.Perm.refl _
    | some s => exact hstart s rfl
  have hlen : (initPath d start).length = matSize d := by
    rw [hinit.length_eq, List.length_range]
  have hinit2 : (initPath d start).Perm (List.range (initPath d start).length) := by
    rw [hlen]
    exact hinit
  refine ⟨lenRank d (initPath d start).length (initPath d start) + 1, fun f hf => ⟨?_, ?_⟩⟩
  · have h := loop2_term d hsym (initPath d start).length f (initPath d start) hinit2
      (by omega)
    obtain ⟨q, hq⟩ := Option.isSome_iff_exists.mp h
    unfold do_2opt
    rw [hq]
    rfl
  · have h := loop3_term d hsym (initPath d start).length f (initPath d start) hinit2
      (by omega)
    obtain ⟨q, hq⟩ := Option.isSome_iff_exists.mp h
    unfold do_3opt
    rw [hq]
    rfl

/-- Witness for C9 on a concrete symmetric 2×2 matrix with the default
start. -/
theorem C9_witness :
    (∀ i j, distAt [[0, 1], [1, 0]] i j = distAt [[0, 1], [1, 0]] j i) ∧
      (∃ F, ∀ f, F ≤ f →
        (do_2opt [[0, 1], [1, 0]] f none).isSome = true ∧
          (do_3opt [[0, 1], [1, 0]] f none).isSome = true) := by
  have hsym : ∀ i j, distAt [[0, 1], [1, 0]] i j = distAt [[0, 1], [1, 0]] j i := by
    intro i j
    rcases i with _ | _ | i <;> rcases j with _ | _ | j <;> rfl
  exact ⟨hsym, C9_termination [[0, 1], [1, 0]] hsym none (fun s h => by cases h)⟩

theorem accE_eq (d : Mat) (path : List ℕ) (n x y : ℕ)
    (hd1 : d.length = n) (hd2 : ∀ r ∈ d, r.length = n)
    (hmem : ∀ v ∈ path, v < n) (hx : x < path.length) (hy : y < path.length) :
    accE d path x y = some (distAt d (path.getD x 0) (path.getD y 0)) := by
  have hgx : path[x]? = some (path.getD x 0) := by
    rw [List.getElem?_eq_getElem hx, List.getD_eq_getElem _ _ hx]
  have hgy : path[y]? = some (path.getD y 0) := by
    rw [List.getElem?_eq_getElem hy, List.getD_eq_getElem _ _ hy]
  have hix : path.getD x 0 < n := by
    rw [List.getD_eq_getElem _ _ hx]
    exact hmem _ (List.getElem_mem hx)
  have hiy : path.getD y 0 < n := by
    rw [List.getD_eq_getElem _ _ hy]
    exact hmem _ (List.getElem_mem hy)
  have hix2 : path.getD x 0 < d.length := by omega
  have hrow : d[path.getD x 0]? = some (d.getD (path.getD x 0) []) := by
    rw [List.getElem?_eq_getElem hix2, List.getD_eq_getElem _ _ hix2]
  have hrlen : (d.getD (path.getD x 0) []).length = n := by
    rw [List.getD_eq_getElem _ _ hix2]
    exact hd2 _ (List.getElem_mem hix2)
  have hentry : (d.getD (path.getD x 0) [])[path.getD y 0]? =
      some ((d.getD (path.getD x 0) []).getD (path.getD y 0) 0) := by
    have hlt : path.getD y 0 < (d.getD (path.getD x 0) []).length := by omega
    rw [List.getElem?_eq_getElem hlt, List.getD_eq_getElem _ _ hlt]
  unfold accE
  simp only [Option.bind_eq_bind, hgx, Option.some_bind, hrow, hgy, hentry]
  rfl

theorem reverseSegmentC_eq (p : List ℕ) (s e : ℕ) (hs : s ≤ e) (he : e ≤ p.length) :
    reverseSegmentC p s e = some (reverseSegment p s e) := by
  unfold reverseSegmentC
  rw [if_pos ⟨hs, he⟩]

theorem swapLoopC_eq (path : List ℕ) (a b k : ℕ)
    (hk : ∀ i, i < k → a + i + 1 < path.length ∧ b + i + 1 < path.length) :
    swapLoopC path a b k = some (swapLoop path a b k) := by
  unfold swapLoopC swapLoop
  refine (foldlM_eq_some (fun q : List ℕ => q.length = path.length) (List.range k) _ _
    ?_ path rfl).1
  intro q i hi hI
  have hi2 := List.mem_range.mp hi
  have hb := hk i hi2
  constructor
  · unfold swapC
    rw [if_pos ⟨by omega, by omega⟩]
  · show (listSwap q (a + i + 1) (b + i + 1)).length = path.length
    rw [listSwap_length]
    exact hI

theorem exchangeC_eq_aux :
    ∀ (N : ℕ) (p : List ℕ) (a b c : ℕ), c - a ≤ N → a ≤ b → b ≤ c → c < p.length →
      exchangeC p a b c = some (exchange p a b c) := by
  intro N
  induction N with
  | zero =>
    intro p a b c hN hab hbc hc
    have h0 : b - a = 0 ∨ c - b = 0 := by omega
    rw [exchangeC, exchange, if_pos h0, if_pos h0]
  | succ N ih =>
    intro p a b c hN hab hbc hc
    by_cases h0 : b - a = 0 ∨ c - b = 0
    · rw [exchangeC, exchange, if_pos h0, if_pos h0]
    · have hswap : swapLoopC p a b (min (b - a) (c - b)) =
          some (swapLoop p a b (min (b - a) (c - b))) := by
        apply swapLoopC_eq
        intro i hi
        omega
      have hslen : (swapLoop p a b (min (b - a) (c - b))).length = p.length := by
        unfold swapLoop
        refine foldl_inv (fun q : List ℕ => q.length = p.length) _ ?_ p rfl
        intro q i _ hI
        show (listSwap q (a + i + 1) (b + i + 1)).length = p.length
        rw [listSwap_length]
        exact hI
      rw [exchangeC, exchange, if_neg h0, if_neg h0, hswap, Option.bind_eq_bind,
        Option.some_bind]
      rcases Nat.lt_trichotomy (b - a) (c - b) with hlt | heq | hgt
      · rw [if_pos hlt, if_pos hlt]
        exact ih _ b (b + (b - a)) c (by omega) (by omega) (by omega) (by omega)
      · rw [if_neg (by omega), if_neg (by omega), if_neg (by omega), if_neg (by omega)]
      · rw [if_neg (by omega), if_pos hgt, if_neg (by omega), if_pos hgt]
        exact ih _ (a + (c - b)) b c (by omega) (by omega) (by omega) (by omega)

theorem exchangeC_eq (p : List ℕ) (a b c : ℕ) (hab : a ≤ b) (hbc : b ≤ c)
    (hc : c < p.length) : exchangeC p a b c = some (exchange p a b c) :=
  exchangeC_eq_aux (c - a) p a b c (Nat.le_refl _) hab hbc hc

theorem edgeSumC_eq (d : Mat) (path : List ℕ) (n : ℕ)
    (hd1 : d.length = n) (hd2 : ∀ r ∈ d, r.length = n) (hmem : ∀ v ∈ path, v < n)
    (x1 y1 x2 y2 x3 y3 : ℕ) (h1 : x1 < path.length) (h2 : y1 < path.length)
    (h3 : x2 < path.length) (h4 : y2 < path.length) (h5 : x3 < path.length)
    (h6 : y3 < path.length) :
    edgeSumC d path x1 y1 x2 y2 x3 y3 =
      some (distAt d (path.getD x1 0) (path.getD y1 0) +
        distAt d (path.getD x2 0) (path.getD y2 0) +
        distAt d (path.getD x3 0) (path.getD y3 0)) := by
  unfold edgeSumC
  simp only [Option.bind_eq_bind, accE_eq d path n x1 y1 hd1 hd2 hmem h1 h2,
    Option.some_bind, accE_eq d path n x2 y2 hd1 hd2 hmem h3 h4,
    accE_eq d path n x3 y3 hd1 hd2 hmem h5 h6]
  rfl

theorem swaps3C_eq (d : Mat) (path : List ℕ) (n a b c : ℕ)
    (hd1 : d.length = n) (hd2 : ∀ r ∈ d, r.length = n) (hmem : ∀ v ∈ path, v < n)
    (hlen : path.length = n) (hab : a < b) (hbc : b < c) (hc : c < n) :
    swaps3C d path n a b c = some (swaps3 d path n a b c) := by
  have hn0 : 0 < n := by omega
  have hmod : (c + 1) % n < n := Nat.mod_lt _ hn0
  unfold swaps3C
  simp only [Option.bind_eq_bind, Option.some_bind,
    edgeSumC_eq d path n hd1 hd2 hmem a (a + 1) b c (b + 1) ((c + 1) % n)
      (by omega) (by omega) (by omega) (by omega) (by omega) (by omega),
    edgeSumC_eq d path n hd1 hd2 hmem a c (b + 1) b (a + 1) ((c + 1) % n)
      (by omega) (by omega) (by omega) (by omega) (by omega) (by omega),
    edgeSumC_eq d path n hd1 hd2 hmem a b (a + 1) (b + 1) c ((c + 1) % n)
      (by omega) (by omega) (by omega) (by omega) (by omega) (by omega),
    edgeSumC_eq d path n hd1 hd2 hmem a (b + 1) c b (a + 1) ((c + 1) % n)
      (by omega) (by omega) (by omega) (by omega) (by omega) (by omega),
    edgeSumC_eq d path n hd1 hd2 hmem a b (a + 1) c (b + 1) ((c + 1) % n)
      (by omega) (by omega) (by omega) (by omega) (by omega) (by omega),
    edgeSumC_eq d path n hd1 hd2 hmem a c (b + 1) (a + 1) b ((c + 1) % n)
      (by omega) (by omega) (by omega) (by omega) (by omega) (by omega),
    edgeSumC_eq d path n hd1 hd2 hmem a (b + 1) c (a + 1) b ((c + 1) % n)
      (by omega) (by omega) (by omega) (by omega) (by omega) (by omega)]
  rfl

theorem apply3C_eq (p : List ℕ) (a b c m : ℕ) (hab : a < b) (hbc : b < c)
    (hc : c < p.length) (hm : m < 7) :
    apply3C p a b c m = some (apply3 p a b c m) := by
  have hrB : reverseSegmentC p (a + 1) (b + 1) = some (reverseSegment p (a + 1) (b + 1)) :=
    reverseSegmentC_eq p (a + 1) (b + 1) (by omega) (by omega)
  have hrC : reverseSegmentC p (b + 1) (c + 1) = some (reverseSegment p (b + 1) (c + 1)) :=
    reverseSegmentC_eq p (b + 1) (c + 1) (by omega) (by omega)
  have hlB : (reverseSegment p (a + 1) (b + 1)).length = p.length :=
    (reverseSegment_perm p (a + 1) (b + 1) (by omega)).length_eq
  have hlC : (reverseSegment p (b + 1) (c + 1)).length = p.length :=
    (reverseSegment_perm p (b + 1) (c + 1) (by omega)).length_eq
  interval_cases m
  · exact hrC
  · exact reverseSegmentC_eq p (a + 1) (c + 1) (by omega) (by omega)
  · exact hrB
  · show (do
      let p1 ← reverseSegmentC p (a + 1) (b + 1)
      exchangeC p1 a b c) = _
    simp only [Option.bind_eq_bind, hrB, Option.some_bind,
      exchangeC_eq _ a b c (by omega) (by omega) (by rw [hlB]; omega)]
    rfl
  · show (do
      let p1 ← reverseSegmentC p (a + 1) (b + 1)
      reverseSegmentC p1 (b + 1) (c + 1)) = _
    simp only [Option.bind_eq_bind, hrB, Option.some_bind,
      reverseSegmentC_eq _ (b + 1) (c + 1) (by omega) (by rw [hlB]; omega)]
    rfl
  · show (do
      let p1 ← reverseSegmentC p (b + 1) (c + 1)
      exchangeC p1 a b c) = _
    simp only [Option.bind_eq_bind, hrC, Option.some_bind,
      exchangeC_eq _ a b c (by omega) (by omega) (by rw [hlC]; omega)]
    rfl
  · exact exchangeC_eq p a b c (by omega) (by omega) hc

/-- Checked/plain agreement for a full 2-opt sweep over a valid tour. -/
theorem sweep2C_eq (d : Mat) (n : ℕ) (hd1 : d.length = n) (hd2 : ∀ r ∈ d, r.length = n)
    (path : List ℕ) (hp : path.Perm (List.range n)) :
    sweep2C d n path = some (sweep2 d n path) := by
  unfold sweep2C sweep2
  refine (foldlM_eq_some (fun st : List ℕ × Bool => st.1.Perm (List.range n))
    (List.range n) _ _ ?_ (path, true) hp).1
  intro st a _ hI
  refine foldlM_eq_some (fun st : List ℕ × Bool => st.1.Perm (List.range n))
    (List.range' (a + 2) (n - (a + 2))) _ _ ?_ st hI
  intro st2 b hb hI2
  have hb2 := List.mem_range'_1.mp hb
  have hlen : st2.1.length = n := by rw [hI2.length_eq, List.length_range]
  have hmem : ∀ v ∈ st2.1, v < n := by
    intro v hv
    exact List.mem_range.mp (hI2.mem_iff.mp hv)
  constructor
  · unfold inner2C inner2
    simp only [Option.bind_eq_bind, Option.some_bind,
      accE_eq d st2.1 n a b hd1 hd2 hmem (by omega) (by omega),
      accE_eq d st2.1 n (a + 1) ((b + 1) % n) hd1 hd2 hmem (by omega)
        (by rw [hlen]; exact Nat.mod_lt _ (by omega)),
      accE_eq d st2.1 n a (a + 1) hd1 hd2 hmem (by omega) (by omega),
      accE_eq d st2.1 n b ((b + 1) % n) hd1 hd2 hmem (by omega)
        (by rw [hlen]; exact Nat.mod_lt _ (by omega))]
    split
    next hcond =>
      rw [reverseSegmentC_eq _ (a + 1) (b + 1) (by omega) (by rw [hlen]; omega)]
      rfl
    next => rfl
  · unfold inner2
    split
    · exact (reverseSegment_perm st2.1 (a + 1) (b + 1) (by omega)).trans hI2
    · exact hI2

/-- Checked/plain agreement for a full 3-opt sweep over a valid tour. -/
theorem sweep3C_eq (d : Mat) (n : ℕ) (hd1 : d.length = n) (hd2 : ∀ r ∈ d, r.length = n)
    (path : List ℕ) (hp : path.Perm (List.range n)) :
    sweep3C d n path = some (sweep3 d n path) := by
  unfold sweep3C sweep3
  refine (foldlM_eq_some (fun st : List ℕ × Bool => st.1.Perm (List.range n))
    (List.range n) _ _ ?_ (path, true) hp).1
  intro st a ha hI
  refine foldlM_eq_some (fun st : List ℕ × Bool => st.1.Perm (List.range n))
    (List.range' (a + 1) (n - (a + 1))) _ _ ?_ st hI
  intro st2 b hb hI2
  refine foldlM_eq_some (fun st : List ℕ × Bool => st.1.Perm (List.range n))
    (List.range' (b + 1) (n - (b + 1))) _ _ ?_ st2 hI2
  intro st3 c hc hI3
  have ha2 := List.mem_range.mp ha
  have hb2 := List.mem_range'_1.mp hb
  have hc2 := List.mem_range'_1.mp hc
  have hlen : st3.1.length = n := by rw [hI3.length_eq, List.length_range]
  have hmem : ∀ v ∈ st3.1, v < n := by
    intro v hv
    exact List.mem_range.mp (hI3.mem_iff.mp hv)
  have hm7 : minIdx (swaps3 d st3.1 n a b c) < 7 := minIdx_lt _ rfl
  constructor
  · unfold inner3C inner3
    have hcur : edgeSumC d st3.1 a (a + 1) b (b + 1) c ((c + 1) % n) =
        some (current3 d st3.1 n a b c) := by
      rw [edgeSumC_eq d st3.1 n hd1 hd2 hmem a (a + 1) b (b + 1) c ((c + 1) % n)
        (by omega) (by omega) (by omega) (by omega) (by omega)
        (by rw [hlen]; exact Nat.mod_lt _ (by omega))]
      rfl
    simp only [Option.bind_eq_bind, Option.some_bind, hcur,
      swaps3C_eq d st3.1 n a b c hd1 hd2 hmem hlen (by omega) (by omega) (by omega)]
    split
    next hcond =>
      rw [apply3C_eq st3.1 a b c _ (by omega) (by omega) (by rw [hlen]; omega) hm7]
      rfl
    next => rfl
  · unfold inner3
    split
    · exact (apply3_perm st3.1 a b c _ (by omega) (by omega)
        (by rw [hlen]; omega)).trans hI3
    · exact hI3

/-- Checked/plain agreement for the final length recomputation. -/
theorem tourLengthC_eq (d : Mat) (n : ℕ) (hd1 : d.length = n)
    (hd2 : ∀ r ∈ d, r.length = n) (path : List ℕ) (hp : path.Perm (List.range n)) :
    tourLengthC d path = some (tourLength d path) := by
  have hmem : ∀ v ∈ path, v < n := by
    intro v hv
    exact List.mem_range.mp (hp.mem_iff.mp hv)
  unfold tourLengthC tourLength
  refine (foldlM_eq_some (fun _ : ℚ => True) (List.range path.length) _ _ ?_ 0 trivial).1
  intro acc i hi _
  have hi2 := List.mem_range.mp hi
  refine ⟨?_, trivial⟩
  rw [accE_eq d path n i ((i + 1) % path.length) hd1 hd2 hmem hi2
    (Nat.mod_lt _ (by omega))]
  rfl

/-- Checked/plain agreement for the whole 2-opt while loop. -/
theorem loop2C_eq (d : Mat) (n : ℕ) (hd1 : d.length = n) (hd2 : ∀ r ∈ d, r.length = n) :
    ∀ (f : ℕ) (p : List ℕ), p.Perm (List.range n) → loop2C d n f p = loop2 d n f p := by
  intro f
  induction f with
  | zero => intro p _; rfl
  | succ f ih =>
    intro p hp
    show (do
      let st ← sweep2C d n p
      if st.2 then pure st.1 else loop2C d n f st.1) = _
    rw [sweep2C_eq d n hd1 hd2 p hp, Option.bind_eq_bind, Option.some_bind]
    simp only [loop2]
    by_cases hst : (sweep2 d n p).2
    · rw [if_pos hst, if_pos hst]
      rfl
    · rw [if_neg hst, if_neg hst]
      exact ih _ ((sweep2_struct d n p).1.trans hp)

/-- Checked/plain agreement for the whole 3-opt while loop. -/
theorem loop3C_eq (d : Mat) (n : ℕ) (hd1 : d.length = n) (hd2 : ∀ r ∈ d, r.length = n) :
    ∀ (f : ℕ) (p : List ℕ), p.Perm (List.range n) → loop3C d n f p = loop3 d n f p := by
  intro f
  induction f with
  | zero => intro p _; rfl
  | succ f ih =>
    intro p hp
    have hplen : p.length = n := by rw [hp.length_eq, List.length_range]
    show (do
      let st ← sweep3C d n p
      if st.2 then pure st.1 else loop3C d n f st.1) = _
    rw [sweep3C_eq d n hd1 hd2 p hp, Option.bind_eq_bind, Option.some_bind]
    simp only [loop3]
    by_cases hst : (sweep3 d n p).2
    · rw [if_pos hst, if_pos hst]
      rfl
    · rw [if_neg hst, if_neg hst]
      exact ih _ ((sweep3_struct d n p hplen).1.trans hp)

/-- C10: with a valid starting tour (default identity or a supplied
permutation of `0..n-1`) over an n×n matrix, every array access of both
optimizers is in bounds: each checked operation (returning `none` exactly
where the source would panic) agrees with the total one — for single sweeps,
for the final length recomputation, and for the complete fuelled runs. -/
theorem C10_no_panic (d : Mat) (n : ℕ) (hd1 : d.length = n)
    (hd2 : ∀ r ∈ d, r.length = n) (fuel : ℕ) (start : Option (List ℕ))
    (hstart : ∀ s, start = some s → s.Perm (List.range n)) :
    (∀ path, path.Perm (List.range n) →
      sweep2C d n path = some (sweep2 d n path) ∧
        sweep3C d n path = some (sweep3 d n path) ∧
        tourLengthC d path = some (tourLength d path)) ∧
      do_2optC d fuel start = do_2opt d fuel start ∧
      do_3optC d fuel start = do_3opt d fuel start := by
  have hinit : (initPath d start).Perm (List.range n) := by
    cases start with
    | none =>
      have : matSize d = n := hd1
      rw [show initPath d none = List.range (matSize d) from rfl, this]
    | some s => exact hstart s rfl
  have hlen : (initPath d start).length = n := by
    rw [hinit.length_eq, List.length_range]
  refine ⟨fun path hp => ⟨sweep2C_eq d n hd1 hd2 path hp, sweep3C_eq d n hd1 hd2 path hp,
    tourLengthC_eq d n hd1 hd2 path hp⟩, ?_, ?_⟩
  · show (do
      let p ← loop2C d (initPath d start).length fuel (initPath d start)
      let len ← tourLengthC d p
      pure (len, p)) = _
    rw [hlen, loop2C_eq d n hd1 hd2 fuel _ hinit]
    unfold do_2opt
    rw [hlen]
    cases hres : loop2 d n fuel (initPath d start) with
    | none => rfl
    | some q =>
      have hq : q.Perm (List.range n) :=
        ((loop2_some d n fuel _ q hres).1).trans hinit
      rw [Option.bind_eq_bind, Option.some_bind, tourLengthC_eq d n hd1 hd2 q hq]
      rfl
  · show (do
      let p ← loop3C d (initPath d start).length fuel (initPath d start)
      let len ← tourLengthC d p
      pure (len, p)) = _
    rw [hlen, loop3C_eq d n hd1 hd2 fuel _ hinit]
    unfold do_3opt
    rw [hlen]
    cases hres : loop3 d n fuel (initPath d start) with
    | none => rfl
    | some q =>
      have hq : q.Perm (List.range n) :=
        ((loop3_some d n fuel _ q hlen hres).1).trans hinit
      rw [Option.bind_eq_bind, Option.some_bind, tourLengthC_eq d n hd1 hd2 q hq]
      rfl

/-- Witness for C10 on a concrete 2×2 instance with a supplied permutation. -/
theorem C10_witness :
    ([[0, 1], [1, 0]] : Mat).length = 2 ∧ (∀ r ∈ ([[0, 1], [1, 0]] : Mat), r.length = 2) ∧
      (∀ s, (some [1, 0] : Option (List ℕ)) = some s → s.Perm (List.range 2)) ∧
      sweep2C [[0, 1], [1, 0]] 2 [1, 0] = some (sweep2 [[0, 1], [1, 0]] 2 [1, 0]) ∧
      sweep3C [[0, 1], [1, 0]] 2 [1, 0] = some (sweep3 [[0, 1], [1, 0]] 2 [1, 0]) ∧
      tourLengthC [[0, 1], [1, 0]] [1, 0] = some (tourLength [[0, 1], [1, 0]] [1, 0]) ∧
      do_2optC [[0, 1], [1, 0]] 1 (some [1, 0]) = do_2opt [[0, 1], [1, 0]] 1 (some [1, 0]) ∧
      do_3optC [[0, 1], [1, 0]] 1 (some [1, 0]) = do_3opt [[0, 1], [1, 0]] 1 (some [1, 0]) := by
  have hd1 : ([[0, 1], [1, 0]] : Mat).length = 2 := by decide
  have hd2 : ∀ r ∈ ([[0, 1], [1, 0]] : Mat), r.length = 2 := by decide
  have hstart : ∀ s, (some [1, 0] : Option (List ℕ)) = some s →
      s.Perm (List.range 2) := by
    intro s h
    cases h
    decide
  have hmain := C10_no_panic [[0, 1], [1, 0]] 2 hd1 hd2 1 (some [1, 0]) hstart
  have hperm : ([1, 0] : List ℕ).Perm (List.range 2) := by decide
  exact ⟨hd1, hd2, hstart, (hmain.1 [1, 0] hperm).1, (hmain.1 [1, 0] hperm).2.1,
    (hmain.1 [1, 0] hperm).2.2, hmain.2.1, hmain.2.2⟩

end TSP
